import Mathlib

/-!
Verification development for the sysctl_loader repository.

Rust strings are modelled as lists of characters (`RStr`); `HashMap<String,
SysctlValue>` is modelled as an association list with unique keys built by
last-wins insertion; nom parsers are modelled as functions
`List Char → Option (List Char × α)` where `none` is a (backtracking) parse
error.  All definitions are transcribed from the source files
`src/types.rs`, `src/validation.rs`, `src/parser/util.rs` and
`src/parser/sysctl.rs`.
-/

set_option maxRecDepth 20000

abbrev RStr := List Char

/-- Whitespace recognized by nom's `multispace1`: space, tab, CR, LF. -/
def nomWS (c : Char) : Bool :=
  c = ' ' || c = '\t' || c = '\r' || c = '\n'

/-- Rust's `char::is_whitespace` (the Unicode White_Space code points). -/
def rustWS (c : Char) : Bool :=
  let n := c.toNat
  n = 0x9 || n = 0xA || n = 0xB || n = 0xC || n = 0xD || n = 0x20 ||
  n = 0x85 || n = 0xA0 || n = 0x1680 || (0x2000 ≤ n && n ≤ 0x200A) ||
  n = 0x2028 || n = 0x2029 || n = 0x202F || n = 0x205F || n = 0x3000

/-- Rust's `str::trim`: removes leading and trailing `char::is_whitespace`. -/
def rustTrim (s : RStr) : RStr :=
  ((s.dropWhile rustWS).reverse.dropWhile rustWS).reverse

/-- ASCII lower-casing, as used by Rust's `eq_ignore_ascii_case`. -/
def lowerAscii (c : Char) : Char :=
  if 'A' ≤ c ∧ c ≤ 'Z' then Char.ofNat (c.toNat + 32) else c

def isDigitC (c : Char) : Bool := '0' ≤ c && c ≤ '9'

/-- Strip one optional leading sign, as in Rust's float parser. -/
def stripSign : RStr → RStr
  | '+' :: r => r
  | '-' :: r => r
  | l => l

/-- Accepts the remainder after the mantissa: empty, or a full exponent
`(e|E) Sign? Digit+`. -/
def expAccepts : RStr → Bool
  | [] => true
  | c :: r =>
    (c = 'e' || c = 'E') &&
      (let r' := stripSign r
       !r'.isEmpty && r'.all isDigitC)

/-- Accepts Rust's decimal number grammar
`( Digit+ | Digit+ "." Digit* | Digit* "." Digit+ ) Exp?`. -/
def numberAccepts (l : RStr) : Bool :=
  let d1 := l.takeWhile isDigitC
  let r1 := l.dropWhile isDigitC
  match r1 with
  | '.' :: r2 =>
    let d2 := r2.takeWhile isDigitC
    let r3 := r2.dropWhile isDigitC
    (!d1.isEmpty || !d2.isEmpty) && expAccepts r3
  | _ => !d1.isEmpty && expAccepts r1

/-- Models `s.parse::<f32>().is_ok()`: optional sign, then case-insensitive
`inf`/`infinity`/`nan` or a full decimal number. -/
def rustF32Accepts (s : RStr) : Bool :=
  let l := stripSign s
  l.map lowerAscii = "inf".data || l.map lowerAscii = "infinity".data ||
  l.map lowerAscii = "nan".data || numberAccepts l

/-- `SchemaType` from src/types.rs. -/
inductive SchemaType
  | String
  | Boolean
  | Number
deriving DecidableEq, Repr

/-- `SchemaType::from_str` from src/types.rs: boolean literals first, then
anything that fully parses as an `f32`, else string. -/
def SchemaType.fromStr (value : RStr) : SchemaType :=
  if value = "true".data || value = "false".data then SchemaType.Boolean
  else if rustF32Accepts value then SchemaType.Number
  else SchemaType.String

/-- `SysctlValue` from src/types.rs. -/
structure SysctlValue where
  value : RStr
  ignore_error : Bool
deriving DecidableEq, Repr

/-- `SchemaEntry` from src/types.rs. -/
structure SchemaEntry where
  name : RStr
  schema_type : SchemaType
deriving DecidableEq, Repr

/-- `Schema` from src/types.rs. -/
structure Schema where
  entries : List SchemaEntry
deriving DecidableEq, Repr

/-- `ValidationError` from src/types.rs. -/
inductive ValidationError
  | MissingKey (name : RStr)
  | UnknownKey (name : RStr)
  | WrongType (key_name : RStr) (expect : SchemaType) (actual : SchemaType)
  | TooLongLine (name : RStr)
deriving DecidableEq, Repr

/-- A `HashMap<String, SysctlValue>` modelled as an association list whose
keys are unique. -/
abbrev ConfigMap := List (RStr × SysctlValue)

/-- `HashMap::get` modelled as first-match association lookup (keys are
unique, so the choice of match is irrelevant). -/
def lookupKV (k : RStr) (m : ConfigMap) : Option SysctlValue :=
  (m.find? (fun p => p.1 = k)).map (fun p => p.2)

/-- `HashMap::insert`: overwrite in place if the key is present, append
otherwise.  This realizes the HashMap's last-wins semantics while keeping
first-occurrence order as the (semantically irrelevant) iteration order. -/
def insertKV (m : ConfigMap) (k : RStr) (v : SysctlValue) : ConfigMap :=
  if m.any (fun p => p.1 = k) then
    m.map (fun p => if p.1 = k then (k, v) else p)
  else m ++ [(k, v)]

/-- `collect::<HashMap<_,_>>()` over a list of key/value pairs. -/
def fromListKV (l : List (RStr × SysctlValue)) : ConfigMap :=
  l.foldl (fun m p => insertKV m p.1 p.2) []

/-- Deduplication keeping first occurrences; models the element set of a
`HashSet` with a concrete (arbitrary) iteration order. -/
def dedupF : List RStr → List RStr
  | [] => []
  | a :: l => a :: (dedupF l).filter (fun x => x ≠ a)

/-- Rust's `str::lines`: split at `\n`, dropping a `\r` that immediately
precedes a split point; the final line terminator is optional and a final
empty piece is not produced. -/
def linesOf : RStr → List RStr
  | [] => []
  | '\r' :: '\n' :: rest => [] :: linesOf rest
  | '\n' :: rest => [] :: linesOf rest
  | c :: rest =>
    match linesOf rest with
    | [] => [[c]]
    | l :: ls => (c :: l) :: ls

/-- The per-key body of the `common_keys` loop of `validate_by_schema`
(src/validation.rs): look up the first schema entry with this name; if the
configuration also has the key, check line lengths for `String` and type
agreement for `Boolean`/`Number`. -/
def keyErrors (value : ConfigMap) (schema : Schema) (k : RStr) :
    List ValidationError :=
  match schema.entries.find? (fun e => e.name = k) with
  | none => []
  | some entry =>
    match lookupKV k value with
    | none => []
    | some sv =>
      let actual := SchemaType.fromStr sv.value
      match entry.schema_type with
      | SchemaType.String =>
        if (linesOf sv.value).any (fun line => 4096 ≤ line.length) then
          [ValidationError.TooLongLine k]
        else []
      | _ =>
        if entry.schema_type ≠ actual then
          [ValidationError.WrongType k entry.schema_type actual]
        else []

/-- The full error list computed by `validate_by_schema`: missing keys, then
unknown keys, then the type/length errors from the union loop. -/
def validationErrors (value : ConfigMap) (schema : Schema) :
    List ValidationError :=
  let value_keys := dedupF (value.map (fun p => p.1))
  let schema_keys := dedupF (schema.entries.map (fun e => e.name))
  let missing_keys := schema_keys.filter (fun k => !value_keys.contains k)
  let unknown_keys := value_keys.filter (fun k => !schema_keys.contains k)
  let common_keys := dedupF (schema_keys ++ value_keys)
  missing_keys.map ValidationError.MissingKey ++
    unknown_keys.map ValidationError.UnknownKey ++
    common_keys.flatMap (keyErrors value schema)

/-- `validate_by_schema` from src/validation.rs: `Ok(())` when no error was
collected, otherwise `Err` with the whole list. -/
def validate_by_schema (value : ConfigMap) (schema : Schema) :
    Except (List ValidationError) Unit :=
  let errors := validationErrors value schema
  if errors.isEmpty then Except.ok () else Except.error errors

instance : DecidableEq (Except (List ValidationError) Unit) := fun a b =>
  match a, b with
  | Except.ok x, Except.ok y => isTrue (by cases x; cases y; rfl)
  | Except.ok _, Except.error _ => isFalse (by simp)
  | Except.error _, Except.ok _ => isFalse (by simp)
  | Except.error x, Except.error y =>
    if h : x = y then isTrue (by rw [h]) else isFalse (by simp [h])

/-- A nom parser over `&str`, modelled on character lists: `none` is a
(backtracking) parse error, `some (rest, out)` returns the unconsumed
suffix and the produced value. -/
abbrev NomP (α : Type) := RStr → Option (RStr × α)

/-- nom's `tag`: match an exact literal prefix. -/
def tagP (t : RStr) : NomP RStr := fun input =>
  if input.take t.length = t then some (input.drop t.length, t) else none

/-- nom's `take_while`: longest (possibly empty) prefix satisfying `p`. -/
def takeWhileP (p : Char → Bool) : NomP RStr := fun input =>
  some (input.dropWhile p, input.takeWhile p)

/-- nom's `take_till`: longest (possibly empty) prefix NOT satisfying `p`. -/
def takeTillP (p : Char → Bool) : NomP RStr :=
  takeWhileP (fun c => !p c)

/-- nom's `multispace1`: one or more of space/tab/CR/LF. -/
def multispace1 : NomP RStr := fun input =>
  match input.takeWhile nomWS with
  | [] => none
  | l => some (input.dropWhile nomWS, l)

/-- nom's `alt` restricted to two branches: try the first, on error try the
second. -/
def altP (p q : NomP α) : NomP α := fun input =>
  match p input with
  | some r => some r
  | none => q input

/-- nom's `line_ending`: `\n` or `\r\n`. -/
def lineEnding : NomP RStr := altP (tagP ['\n']) (tagP ['\r', '\n'])

/-- nom's `eof`: succeeds exactly at end of input. -/
def eofP : NomP RStr := fun input =>
  if input.isEmpty then some ([], []) else none

/-- `comment` from src/parser/util.rs: `;` or `#`, the rest of the line,
then a line ending or end of input. -/
def comment : NomP Unit := fun input =>
  match altP (tagP [';']) (tagP ['#']) input with
  | none => none
  | some (r1, _) =>
    match takeTillP (fun c => c = '\r' || c = '\n') r1 with
    | none => none
    | some (r2, _) =>
      match altP lineEnding eofP r2 with
      | none => none
      | some (r3, _) => some (r3, ())

/-- One repetition step of `skip0`: a comment or a run of whitespace. -/
def skipItem : NomP Unit :=
  altP comment (fun input => (multispace1 input).map (fun r => (r.1, ())))

/-- Fueled body of nom's `many0`; mirrors nom's error on an iteration that
consumes nothing. -/
def many0Go (p : NomP α) : Nat → NomP (List α)
  | 0, _ => none
  | fuel + 1, input =>
    match p input with
    | none => some (input, [])
    | some (rest, a) =>
      if rest.length < input.length then
        match many0Go p fuel rest with
        | none => none
        | some (rest2, as) => some (rest2, a :: as)
      else none

/-- nom's `many0`: the fuel `input.length + 1` suffices because every kept
iteration strictly consumes. -/
def many0P (p : NomP α) : NomP (List α) := fun input =>
  many0Go p (input.length + 1) input

/-- `skip0` from src/parser/util.rs: zero or more comments or whitespace
runs; never fails. -/
def skip0 : NomP Unit := fun input =>
  match many0P skipItem input with
  | some (r, _) => some (r, ())
  | none => none

/-- `token` from src/parser/util.rs: run `skip0`, then the wrapped parser. -/
def token (p : NomP α) : NomP α := fun input =>
  match skip0 input with
  | none => none
  | some (s, _) => p s

/-- `hyphen` from src/parser/util.rs. -/
def hyphen : NomP RStr := token (tagP ['-'])

/-- `equals` from src/parser/util.rs. -/
def equals : NomP RStr := token (tagP ['='])

/-- `parse_key` from src/parser/sysctl.rs: a run of characters that are
neither (Unicode) whitespace nor `=`. -/
def parse_key : NomP RStr :=
  token (takeWhileP (fun c => !rustWS c && c ≠ '='))

/-- `parse_value` from src/parser/sysctl.rs: up to the end of the line,
then `str::trim`. -/
def parse_value : NomP RStr := fun input =>
  (token (takeTillP (fun c => c = '\r' || c = '\n')) input).map
    (fun r => (r.1, rustTrim r.2))

/-- The tail of `parse_key_value` after the optional hyphen:
`parse_key, equals, parse_value`, tagging the result with whether the
hyphen was present. -/
def parse_kv_tail (r1 : RStr) (ig : Bool) :
    Option (RStr × (RStr × SysctlValue)) :=
  match parse_key r1 with
  | none => none
  | some (r2, k) =>
    match equals r2 with
    | none => none
    | some (r3, _) =>
      match parse_value r3 with
      | none => none
      | some (r4, v) =>
        some (r4, (k, { value := v, ignore_error := ig }))

/-- `parse_key_value` from src/parser/sysctl.rs:
`opt(hyphen), parse_key, equals, parse_value`. -/
def parse_key_value : NomP (RStr × SysctlValue) := fun input =>
  match hyphen input with
  | some (r, _) => parse_kv_tail r true
  | none => parse_kv_tail input false

/-- The repeated unit of `parse_sysctl`:
`delimited(skip0, parse_key_value, skip0)`. -/
def sysctlUnit : NomP (RStr × SysctlValue) := fun input =>
  match skip0 input with
  | none => none
  | some (r1, _) =>
    match parse_key_value r1 with
    | none => none
    | some (r2, kv) =>
      match skip0 r2 with
      | none => none
      | some (r3, _) => some (r3, kv)

/-- `parse_sysctl` from src/parser/sysctl.rs:
`terminated(many0(delimited(skip0, parse_key_value, skip0)), eof)` collected
into a map. -/
def parse_sysctl : NomP ConfigMap := fun input =>
  match many0P sysctlUnit input with
  | none => none
  | some (r, kvs) =>
    match eofP r with
    | none => none
    | some (r2, _) => some (r2, fromListKV kvs)

/-- Rendering of a single map entry as a `key=value` line, with a `-`
prefix when `ignore_error` is set (spec §8, round-trip property). -/
def renderEntry (e : RStr × SysctlValue) : RStr :=
  (if e.2.ignore_error then ['-'] else []) ++ e.1 ++ '=' :: (e.2.value ++ ['\n'])

/-- Rendering of a configuration map, one `key=value` line per entry. -/
def render : List (RStr × SysctlValue) → RStr
  | [] => []
  | e :: rest => renderEntry e ++ render rest

example : parse_key_value "-key = value\n".data =
    some ("\n".data, ("key".data, ⟨"value".data, true⟩)) := by decide
example : parse_key_value "key=value\n".data =
    some ("\n".data, ("key".data, ⟨"value".data, false⟩)) := by decide
example : parse_sysctl "key1 = value1\n-key2 = value2\n".data =
    some ([], [("key1".data, ⟨"value1".data, false⟩),
               ("key2".data, ⟨"value2".data, true⟩)]) := by decide
example : parse_sysctl "".data = some ([], []) := by decide
example : skip0 "   \n# a comment\n   \n".data = some ([], ()) := by decide
example : skip0 "   # a comment".data = some ([], ()) := by decide

section ListHelpers

variable {α : Type}

theorem length_dropWhile_le' (p : α → Bool) (l : List α) :
    (l.dropWhile p).length ≤ l.length := by
  induction l with
  | nil => simp
  | cons a l ih =>
    by_cases h : p a
    · simpa [List.dropWhile, h] using Nat.le_succ_of_le ih
    · simp [List.dropWhile, h]

theorem mem_dropWhile' (p : α → Bool) {l : List α} {a : α}
    (h : a ∈ l.dropWhile p) : a ∈ l := by
  induction l with
  | nil => simp at h
  | cons b l ih =>
    by_cases hb : p b
    · simp only [List.dropWhile, hb] at h
      exact List.mem_cons_of_mem _ (ih h)
    · simpa [List.dropWhile, hb] using h

theorem dropWhile_head_false (p : α → Bool) {l : List α} {c : α} {t : List α}
    (h : l.dropWhile p = c :: t) : p c = false := by
  induction l with
  | nil => simp at h
  | cons b l ih =>
    by_cases hb : p b
    · exact ih (by simpa [List.dropWhile, hb] using h)
    · simp only [List.dropWhile, hb] at h
      cases h
      simpa using hb

theorem dropWhile_eq_self_of_head (p : α → Bool) {l : List α}
    (h : l = [] ∨ ∃ c t, l = c :: t ∧ p c = false) : l.dropWhile p = l := by
  rcases h with h | ⟨c, t, rfl, hc⟩
  · simp [h]
  · simp [List.dropWhile, hc]

theorem takeWhile_append_stop (p : α → Bool) {l : List α} {x : α}
    (t : List α) (hall : ∀ c ∈ l, p c = true) (hx : p x = false) :
    (l ++ x :: t).takeWhile p = l ∧ (l ++ x :: t).dropWhile p = x :: t := by
  induction l with
  | nil => simp [List.takeWhile, List.dropWhile, hx]
  | cons a l ih =>
    have ha : p a = true := hall a (List.mem_cons_self a l)
    have ih' := ih (fun c hc => hall c (List.mem_cons_of_mem a hc))
    simp [List.takeWhile, List.dropWhile, ha, ih'.1, ih'.2]

theorem dropWhile_lt_of_takeWhile_ne (p : α → Bool) {l : List α}
    (h : l.takeWhile p ≠ []) : (l.dropWhile p).length < l.length := by
  have hsplit : l.takeWhile p ++ l.dropWhile p = l :=
    List.takeWhile_append_dropWhile p l
  have hlen := congrArg List.length hsplit
  simp only [List.length_append] at hlen
  have hpos : 0 < (l.takeWhile p).length := List.length_pos.mpr h
  omega

end ListHelpers

section TrimHelpers

theorem rustTrim_reverse (s : RStr) :
    (rustTrim s).reverse = ((s.dropWhile rustWS).reverse).dropWhile rustWS := by
  simp [rustTrim]

theorem rustTrim_head_false {s : RStr} {c : Char} {t : RStr}
    (h : rustTrim s = c :: t) : rustWS c = false := by
  have hpre : ∃ u, s.dropWhile rustWS = rustTrim s ++ u := by
    refine ⟨(((s.dropWhile rustWS).reverse).takeWhile rustWS).reverse, ?_⟩
    have hsplit := List.takeWhile_append_dropWhile rustWS
      ((s.dropWhile rustWS).reverse)
    have := congrArg List.reverse hsplit
    simp only [List.reverse_append, List.reverse_reverse] at this
    conv_lhs => rw [← this]
    rw [rustTrim]
  rcases hpre with ⟨u, hu⟩
  rw [h] at hu
  exact dropWhile_head_false rustWS hu

theorem rustTrim_idem (s : RStr) : rustTrim (rustTrim s) = rustTrim s := by
  have h1 : (rustTrim s).dropWhile rustWS = rustTrim s := by
    apply dropWhile_eq_self_of_head
    cases hts : rustTrim s with
    | nil => exact Or.inl rfl
    | cons c t => exact Or.inr ⟨c, t, rfl, rustTrim_head_false hts⟩
  have h2 : ((rustTrim s).reverse).dropWhile rustWS = (rustTrim s).reverse := by
    apply dropWhile_eq_self_of_head
    rw [rustTrim_reverse]
    cases hts : ((s.dropWhile rustWS).reverse).dropWhile rustWS with
    | nil => exact Or.inl rfl
    | cons c t => exact Or.inr ⟨c, t, rfl, dropWhile_head_false rustWS hts⟩
  rw [rustTrim, h1, h2, List.reverse_reverse]

theorem rustTrim_all {p : Char → Bool} {s : RStr}
    (h : ∀ c ∈ s, p c = true) : ∀ c ∈ rustTrim s, p c = true := by
  intro c hc
  rw [rustTrim] at hc
  rw [List.mem_reverse] at hc
  have hc2 := mem_dropWhile' rustWS hc
  rw [List.mem_reverse] at hc2
  exact h c (mem_dropWhile' rustWS hc2)

end TrimHelpers

section DedupHelpers

theorem mem_dedupF {x : RStr} : ∀ {l : List RStr}, x ∈ dedupF l ↔ x ∈ l := by
  intro l
  induction l with
  | nil => simp [dedupF]
  | cons a l ih =>
    simp only [dedupF, List.mem_cons, List.mem_filter]
    constructor
    · rintro (rfl | ⟨hmem, _⟩)
      · exact Or.inl rfl
      · exact Or.inr (ih.mp hmem)
    · rintro (rfl | hmem)
      · exact Or.inl rfl
      · by_cases hxa : x = a
        · exact Or.inl hxa
        · exact Or.inr ⟨ih.mpr hmem, by simpa using hxa⟩

theorem nodup_dedupF : ∀ (l : List RStr), (dedupF l).Nodup := by
  intro l
  induction l with
  | nil => simp [dedupF]
  | cons a l ih =>
    simp only [dedupF, List.nodup_cons]
    constructor
    · intro hmem
      have := (List.mem_filter.mp hmem).2
      simp at this
    · exact List.Nodup.filter _ ih

theorem dedupF_append_single (l : List RStr) (x : RStr) :
    dedupF (l ++ [x]) = dedupF l ++ (if x ∈ l then [] else [x]) := by
  induction l with
  | nil => simp [dedupF]
  | cons a l ih =>
    by_cases hxa : x = a
    · subst hxa
      by_cases hxl : x ∈ l <;>
        simp [dedupF, ih, hxl, List.filter_append]
    · by_cases hxl : x ∈ l <;>
        simp [dedupF, ih, hxl, hxa, List.filter_append, List.filter_cons]

theorem dedupF_append_mem {l : List RStr} {x : RStr} (h : x ∈ l) :
    dedupF (l ++ [x]) = dedupF l := by
  rw [dedupF_append_single, if_pos h, List.append_nil]

end DedupHelpers

section Many0Helpers

variable {α : Type} {p : NomP α}

/-- A parser consumes: every success leaves a strictly shorter remainder. -/
def Consumes (p : NomP α) : Prop :=
  ∀ i r a, p i = some (r, a) → r.length < i.length

theorem many0Go_of_none {i : RStr} {fuel : Nat} (h : p i = none) :
    many0Go p (fuel + 1) i = some (i, []) := by
  simp [many0Go, h]

theorem many0Go_of_some {i r : RStr} {a : α} {fuel : Nat}
    (h : p i = some (r, a)) (hlt : r.length < i.length) :
    many0Go p (fuel + 1) i =
      (many0Go p fuel r).map (fun x => (x.1, a :: x.2)) := by
  simp only [many0Go, h, if_pos hlt]
  cases many0Go p fuel r with
  | none => rfl
  | some x => rfl

theorem many0Go_fuel (hp : Consumes p) :
    ∀ f1 : Nat, ∀ f2 : Nat, ∀ i : RStr, i.length < f1 → i.length < f2 →
      many0Go p f1 i = many0Go p f2 i := by
  intro f1
  induction f1 with
  | zero => intro f2 i h1 _; omega
  | succ f1 ih =>
    intro f2 i h1 h2
    cases f2 with
    | zero => omega
    | succ f2 =>
      cases hpi : p i with
      | none => rw [many0Go_of_none hpi, many0Go_of_none hpi]
      | some ra =>
        obtain ⟨r, a⟩ := ra
        have hlt : r.length < i.length := hp i r a hpi
        rw [many0Go_of_some hpi hlt, many0Go_of_some hpi hlt,
          ih f2 r (by omega) (by omega)]

theorem many0P_of_none {i : RStr} (h : p i = none) :
    many0P p i = some (i, []) := many0Go_of_none h

theorem many0P_of_some (hp : Consumes p) {i r : RStr} {a : α}
    (h : p i = some (r, a)) :
    many0P p i = (many0P p r).map (fun x => (x.1, a :: x.2)) := by
  have hlt : r.length < i.length := hp i r a h
  rw [many0P, many0Go_of_some h hlt,
    many0Go_fuel hp (i.length) (r.length + 1) r (by omega) (by omega)]
  rfl

theorem many0P_total (hp : Consumes p) :
    ∀ i : RStr, ∃ r as, many0P p i = some (r, as) ∧ r.length ≤ i.length := by
  suffices h : ∀ n : Nat, ∀ i : RStr, i.length = n →
      ∃ r as, many0P p i = some (r, as) ∧ r.length ≤ i.length by
    intro i; exact h i.length i rfl
  intro n
  induction n using Nat.strong_induction_on with
  | _ n ih =>
    intro i hn
    subst hn
    cases hpi : p i with
    | none => exact ⟨i, [], many0P_of_none hpi, Nat.le_refl _⟩
    | some ra =>
      obtain ⟨r, a⟩ := ra
      have hlt : r.length < i.length := hp i r a hpi
      obtain ⟨r2, as, hr2, hle⟩ := ih r.length hlt r rfl
      exact ⟨r2, a :: as, by rw [many0P_of_some hp hpi, hr2]; rfl, by omega⟩

theorem many0P_pres (hp : Consumes p) {Q : α → Prop}
    (hQ : ∀ i r a, p i = some (r, a) → Q a) :
    ∀ i r as, many0P p i = some (r, as) → ∀ a ∈ as, Q a := by
  suffices h : ∀ n : Nat, ∀ i : RStr, i.length = n → ∀ r as,
      many0P p i = some (r, as) → ∀ a ∈ as, Q a by
    intro i; exact h i.length i rfl
  intro n
  induction n using Nat.strong_induction_on with
  | _ n ih =>
    intro i hn
    subst hn
    intro r as hmany a ha
    cases hpi : p i with
    | none =>
      rw [many0P_of_none hpi] at hmany
      cases hmany
      simp at ha
    | some ra =>
      obtain ⟨r1, a1⟩ := ra
      have hlt : r1.length < i.length := hp i r1 a1 hpi
      rw [many0P_of_some hp hpi] at hmany
      cases hm2 : many0P p r1 with
      | none => rw [hm2] at hmany; cases hmany
      | some x =>
        rw [hm2] at hmany
        obtain ⟨r2, as2⟩ := x
        cases hmany
        rcases List.mem_cons.mp ha with rfl | ha2
        · exact hQ i r1 a hpi
        · exact ih r1.length hlt r1 rfl r2 as2 hm2 a ha2

theorem many0P_nil_inv {i r : RStr} (h : many0P p i = some (r, [])) :
    r = i ∧ p i = none := by
  cases hpi : p i with
  | none =>
    rw [many0P_of_none hpi] at h
    cases h
    exact ⟨rfl, rfl⟩
  | some ra =>
    obtain ⟨r1, a1⟩ := ra
    rw [many0P] at h
    simp only [many0Go, hpi] at h
    by_cases hlt : r1.length < i.length
    · rw [if_pos hlt] at h
      cases hm2 : many0Go p i.length r1 with
      | none => rw [hm2] at h; cases h
      | some x => rw [hm2] at h; cases h
    · rw [if_neg hlt] at h; cases h

end Many0Helpers

section ConsumptionHelpers

theorem tagP_inv {t i r o : RStr} (h : tagP t i = some (r, o)) :
    r = i.drop t.length ∧ o = t ∧ i.take t.length = t := by
  by_cases hc : i.take t.length = t
  · rw [tagP, if_pos hc] at h
    cases h
    exact ⟨rfl, rfl, hc⟩
  · rw [tagP, if_neg hc] at h
    cases h

theorem tagP_le {t i r o : RStr} (h : tagP t i = some (r, o)) :
    r.length ≤ i.length := by
  rw [(tagP_inv h).1]
  simp

theorem tagP_lt {t i r o : RStr} (ht : t ≠ []) (h : tagP t i = some (r, o)) :
    r.length < i.length := by
  obtain ⟨hr, -, htake⟩ := tagP_inv h
  have hlen : t.length ≤ i.length := by
    have := congrArg List.length htake
    simp only [List.length_take] at this
    omega
  have hpos : 0 < t.length := List.length_pos.mpr ht
  rw [hr]
  simp only [List.length_drop]
  omega

theorem takeTillP_eq (p : Char → Bool) (i : RStr) :
    takeTillP p i =
      some (i.dropWhile (fun c => !p c), i.takeWhile (fun c => !p c)) := rfl

theorem multispace1_inv {i r o : RStr} (h : multispace1 i = some (r, o)) :
    r = i.dropWhile nomWS ∧ i.takeWhile nomWS ≠ [] := by
  rw [multispace1] at h
  cases htw : i.takeWhile nomWS with
  | nil => rw [htw] at h; cases h
  | cons c t =>
    rw [htw] at h
    cases h
    exact ⟨rfl, by simp⟩

theorem multispace1_lt {i r o : RStr} (h : multispace1 i = some (r, o)) :
    r.length < i.length := by
  obtain ⟨hr, hne⟩ := multispace1_inv h
  rw [hr]
  exact dropWhile_lt_of_takeWhile_ne nomWS hne

theorem altP_inv {α : Type} {p q : NomP α} {i : RStr} {x : RStr × α}
    (h : altP p q i = some x) : p i = some x ∨ (p i = none ∧ q i = some x) := by
  rw [altP] at h
  cases h1 : p i with
  | some y => rw [h1] at h; exact Or.inl h
  | none => rw [h1] at h; exact Or.inr ⟨rfl, h⟩

theorem lineEnding_le {i r o : RStr} (h : lineEnding i = some (r, o)) :
    r.length ≤ i.length := by
  rcases altP_inv h with h1 | ⟨-, h1⟩
  · exact tagP_le h1
  · exact tagP_le h1

theorem eofP_inv {i r o : RStr} (h : eofP i = some (r, o)) :
    i = [] ∧ r = [] := by
  by_cases hi : i.isEmpty
  · rw [eofP, if_pos hi] at h
    cases h
    exact ⟨by simpa [List.isEmpty_iff] using hi, rfl⟩
  · rw [eofP, if_neg hi] at h
    cases h

theorem comment_lt {i : RStr} {r : RStr × Unit} (h : comment i = some r) :
    r.1.length < i.length := by
  rw [comment] at h
  split at h
  · cases h
  · next r1 o1 h1 =>
    have hx1 : r1.length < i.length := by
      rcases altP_inv h1 with h2 | ⟨-, h2⟩
      · exact tagP_lt (by simp) h2
      · exact tagP_lt (by simp) h2
    split at h
    · cases h
    · next r2 o2 h2 =>
      have hr2le : r2.length ≤ r1.length := by
        rw [takeTillP_eq] at h2
        cases h2
        exact length_dropWhile_le' _ _
      split at h
      · cases h
      · next r3 o3 h3 =>
        have hx3 : r3.length ≤ r2.length := by
          rcases altP_inv h3 with h4 | ⟨-, h4⟩
          · exact lineEnding_le h4
          · obtain ⟨-, hr⟩ := eofP_inv h4
            rw [hr]; simp
        cases h
        simp only []
        omega

theorem skipItem_lt : Consumes skipItem := by
  intro i r a h
  rcases altP_inv h with h1 | ⟨-, h1⟩
  · exact comment_lt h1
  · cases h2 : multispace1 i with
    | none => rw [h2] at h1; cases h1
    | some x =>
      rw [h2] at h1
      cases h1
      exact multispace1_lt h2

theorem skip0_total (i : RStr) :
    ∃ r, skip0 i = some (r, ()) ∧ r.length ≤ i.length := by
  obtain ⟨r, as, hmany, hle⟩ := many0P_total skipItem_lt i
  exact ⟨r, by rw [skip0, hmany], hle⟩

theorem skip0_le {i r : RStr} {u : Unit} (h : skip0 i = some (r, u)) :
    r.length ≤ i.length := by
  obtain ⟨r2, h2, hle⟩ := skip0_total i
  rw [h] at h2
  cases h2
  exact hle

theorem token_some_inv {α : Type} {p : NomP α} {i : RStr} {x : RStr × α}
    (h : token p i = some x) :
    ∃ s, skip0 i = some (s, ()) ∧ p s = some x ∧ s.length ≤ i.length := by
  rw [token] at h
  split at h
  · cases h
  · next s u h1 =>
    cases u
    exact ⟨s, h1, h, skip0_le h1⟩

theorem equals_lt {i r o : RStr} (h : equals i = some (r, o)) :
    r.length < i.length := by
  obtain ⟨s, -, hp, hle⟩ := token_some_inv h
  have := tagP_lt (t := ['=']) (by simp) hp
  omega

theorem parse_key_le {i r k : RStr} (h : parse_key i = some (r, k)) :
    r.length ≤ i.length := by
  obtain ⟨s, -, hp, hle⟩ := token_some_inv h
  rw [takeWhileP] at hp
  cases hp
  have := length_dropWhile_le' (fun c => !rustWS c && c ≠ '=') s
  omega

theorem parse_value_le {i r v : RStr} (h : parse_value i = some (r, v)) :
    r.length ≤ i.length := by
  rw [parse_value] at h
  cases htok : token (takeTillP (fun c => c = '\r' || c = '\n')) i with
  | none => rw [htok] at h; cases h
  | some x =>
    rw [htok] at h
    cases h
    obtain ⟨s, -, hp, hle⟩ := token_some_inv htok
    rw [takeTillP_eq] at hp
    cases hp
    have := length_dropWhile_le' (fun c => !(c = '\r' || c = '\n')) s
    simp only []
    omega

theorem parse_kv_tail_lt {r1 : RStr} {ig : Bool}
    {x : RStr × (RStr × SysctlValue)} (h : parse_kv_tail r1 ig = some x) :
    x.1.length < r1.length := by
  rw [parse_kv_tail] at h
  split at h
  · cases h
  · next r2 k h2 =>
    have h2le := parse_key_le h2
    split at h
    · cases h
    · next r3 o3 h3 =>
      have h3lt := equals_lt h3
      split at h
      · cases h
      · next r4 v h4 =>
        have h4le := parse_value_le h4
        cases h
        simp only []
        omega

theorem parse_key_value_lt {i : RStr} {x : RStr × (RStr × SysctlValue)}
    (h : parse_key_value i = some x) : x.1.length < i.length := by
  rw [parse_key_value] at h
  split at h
  · next r o hh =>
    have hr : r.length ≤ i.length := by
      obtain ⟨s, -, hp, hle⟩ := token_some_inv hh
      have := tagP_le hp
      omega
    have := parse_kv_tail_lt h
    omega
  · next hh =>
    exact parse_kv_tail_lt h

theorem sysctlUnit_lt : Consumes sysctlUnit := by
  intro i r a h
  rw [sysctlUnit] at h
  split at h
  · cases h
  · next r1 u1 h1 =>
    have h1le := skip0_le h1
    split at h
    · cases h
    · next r2 kv h2 =>
      have h2lt := parse_key_value_lt h2
      split at h
      · cases h
      · next r3 u3 h3 =>
        have h3le := skip0_le h3
        cases h
        simp only [] at h2lt ⊢
        omega

end ConsumptionHelpers

section Skip0Compute

theorem tagP_single (d c : Char) (t : RStr) :
    tagP [d] (c :: t) = if c = d then some (t, [d]) else none := by
  rw [tagP]
  have e1 : (c :: t).take [d].length = [c] := by simp
  have e2 : (c :: t).drop [d].length = t := by simp
  rw [e1, e2]
  by_cases h : c = d
  · subst h
    simp
  · rw [if_neg (by simpa using h), if_neg h]

theorem takeWhile_cons_of_neg {p : Char → Bool} {c : Char} (t : RStr)
    (h : p c = false) : (c :: t).takeWhile p = [] := by
  simp [List.takeWhile, h]

theorem dropWhile_cons_of_neg {p : Char → Bool} {c : Char} (t : RStr)
    (h : p c = false) : (c :: t).dropWhile p = c :: t := by
  simp [List.dropWhile, h]

theorem takeWhile_cons_of_pos {p : Char → Bool} {c : Char} (t : RStr)
    (h : p c = true) : (c :: t).takeWhile p = c :: t.takeWhile p := by
  simp [List.takeWhile, h]

theorem dropWhile_cons_of_pos {p : Char → Bool} {c : Char} (t : RStr)
    (h : p c = true) : (c :: t).dropWhile p = t.dropWhile p := by
  simp [List.dropWhile, h]

theorem skipItem_none_head {c : Char} {t : RStr} (hc1 : c ≠ '#')
    (hc2 : c ≠ ';') (hw : nomWS c = false) : skipItem (c :: t) = none := by
  have hcom : comment (c :: t) = none := by
    rw [comment]
    have h1 : altP (tagP [';']) (tagP ['#']) (c :: t) = none := by
      rw [altP, tagP_single, tagP_single, if_neg hc2, if_neg hc1]
    rw [h1]
  have hms : multispace1 (c :: t) = none := by
    rw [multispace1, takeWhile_cons_of_neg t hw]
  rw [skipItem, altP, hcom, hms]
  rfl

theorem skip0_nil : skip0 [] = some ([], ()) := by decide

theorem skip0_noop {c : Char} {t : RStr} (hc1 : c ≠ '#') (hc2 : c ≠ ';')
    (hw : nomWS c = false) : skip0 (c :: t) = some (c :: t, ()) := by
  rw [skip0, many0P, many0Go_of_none (skipItem_none_head hc1 hc2 hw)]

/-- A position at which `skip0` stops: end of input, or a character that is
neither nom whitespace nor a comment starter. -/
def skipStop (l : RStr) : Prop :=
  l = [] ∨ ∃ c t, l = c :: t ∧ c ≠ '#' ∧ c ≠ ';' ∧ nomWS c = false

theorem skip0_stop {l : RStr} (h : skipStop l) : skip0 l = some (l, ()) := by
  rcases h with rfl | ⟨c, t, rfl, hc1, hc2, hw⟩
  · exact skip0_nil
  · exact skip0_noop hc1 hc2 hw

theorem skipItem_none_stop {l : RStr} (h : skipStop l) : skipItem l = none := by
  rcases h with rfl | ⟨c, t, rfl, hc1, hc2, hw⟩
  · decide
  · exact skipItem_none_head hc1 hc2 hw

theorem skipItem_newline {rest : RStr} (h : skipStop rest) :
    skipItem ('\n' :: rest) = some (rest, ()) := by
  have hcom : comment ('\n' :: rest) = none := by
    rw [comment]
    have h1 : altP (tagP [';']) (tagP ['#']) ('\n' :: rest) = none := by
      rw [altP, tagP_single, tagP_single, if_neg (by decide), if_neg (by decide)]
    rw [h1]
  have hrest : rest.takeWhile nomWS = [] ∧ rest.dropWhile nomWS = rest := by
    rcases h with rfl | ⟨c, t, rfl, hc1, hc2, hw⟩
    · exact ⟨rfl, rfl⟩
    · exact ⟨takeWhile_cons_of_neg t hw, dropWhile_cons_of_neg t hw⟩
  have hms : multispace1 ('\n' :: rest) = some (rest, ['\n']) := by
    rw [multispace1, takeWhile_cons_of_pos rest (by decide), hrest.1,
      dropWhile_cons_of_pos rest (by decide), hrest.2]
  rw [skipItem, altP, hcom, hms]
  rfl

theorem skip0_newline {rest : RStr} (h : skipStop rest) :
    skip0 ('\n' :: rest) = some (rest, ()) := by
  rw [skip0, many0P, many0Go_of_some (skipItem_newline h) (by simp)]
  have hlen : rest.length < ('\n' :: rest).length := by simp
  rw [many0Go_fuel skipItem_lt ('\n' :: rest).length (rest.length + 1) rest
    hlen (Nat.lt_succ_self _)]
  rw [many0Go_of_none (skipItem_none_stop h)]
  rfl

end Skip0Compute

section ParseInversion

theorem mem_takeWhile' {α : Type} (p : α → Bool) {l : List α} {a : α}
    (h : a ∈ l.takeWhile p) : p a = true := by
  induction l with
  | nil => simp at h
  | cons b t ih =>
    by_cases hb : p b
    · rw [List.takeWhile] at h
      rw [hb] at h
      rcases List.mem_cons.mp h with rfl | h2
      · exact hb
      · exact ih h2
    · rw [List.takeWhile] at h
      rw [Bool.eq_false_iff.mpr hb] at h
      simp at h

theorem token_none_inv {α : Type} {p : NomP α} {i : RStr}
    (h : token p i = none) : ∃ j, skip0 i = some (j, ()) ∧ p j = none := by
  obtain ⟨j, hj, -⟩ := skip0_total i
  refine ⟨j, hj, ?_⟩
  rw [token, hj] at h
  exact h

theorem takeWhile_cons_inv {p : Char → Bool} {j : RStr} {c : Char} {t : RStr}
    (h : j.takeWhile p = c :: t) : ∃ t2, j = c :: t2 ∧ p c = true := by
  cases j with
  | nil => simp at h
  | cons a t2 =>
    by_cases ha : p a
    · rw [takeWhile_cons_of_pos _ ha] at h
      cases h
      exact ⟨t2, rfl, ha⟩
    · rw [takeWhile_cons_of_neg _ (by simpa using ha)] at h
      cases h

theorem tagP_none_head {d : Char} {j : RStr} (h : tagP [d] j = none) :
    j = [] ∨ ∃ c t, j = c :: t ∧ c ≠ d := by
  cases j with
  | nil => exact Or.inl rfl
  | cons c t =>
    rw [tagP_single] at h
    by_cases hc : c = d
    · rw [if_pos hc] at h; cases h
    · exact Or.inr ⟨c, t, rfl, hc⟩

theorem parse_key_inv {i r k : RStr} (h : parse_key i = some (r, k)) :
    ∃ j, skip0 i = some (j, ()) ∧
      k = j.takeWhile (fun c => !rustWS c && c ≠ '=') ∧
      r = j.dropWhile (fun c => !rustWS c && c ≠ '=') := by
  obtain ⟨s, hs, hp, -⟩ := token_some_inv h
  rw [takeWhileP] at hp
  cases hp
  exact ⟨s, hs, rfl, rfl⟩

theorem parse_value_inv {i r v : RStr} (h : parse_value i = some (r, v)) :
    ∃ j, skip0 i = some (j, ()) ∧
      v = rustTrim (j.takeWhile (fun c => !(c = '\r' || c = '\n'))) ∧
      r = j.dropWhile (fun c => !(c = '\r' || c = '\n')) := by
  rw [parse_value] at h
  cases htok : token (takeTillP (fun c => c = '\r' || c = '\n')) i with
  | none => rw [htok] at h; cases h
  | some x =>
    rw [htok] at h
    cases h
    obtain ⟨s, hs, hp, -⟩ := token_some_inv htok
    rw [takeTillP_eq] at hp
    cases hp
    exact ⟨s, hs, rfl, rfl⟩

/-- The invariants every parsed key/value pair satisfies: key characters are
neither whitespace nor `=`; a key starting with `-` can only arise with the
ignore flag set; the value contains no line break and is trim-idempotent. -/
def kvInv (u : RStr × SysctlValue) : Prop :=
  (∀ c ∈ u.1, rustWS c = false ∧ c ≠ '=') ∧
  (u.2.ignore_error = false → ∀ t, u.1 ≠ '-' :: t) ∧
  (∀ c ∈ u.2.value, c ≠ '\r' ∧ c ≠ '\n') ∧
  rustTrim u.2.value = u.2.value

theorem parse_kv_tail_inv {r1 : RStr} {ig : Bool}
    {x : RStr × (RStr × SysctlValue)} (h : parse_kv_tail r1 ig = some x) :
    x.2.2.ignore_error = ig ∧
    (∃ j, skip0 r1 = some (j, ()) ∧
      x.2.1 = j.takeWhile (fun c => !rustWS c && c ≠ '=')) ∧
    (∀ c ∈ x.2.2.value, c ≠ '\r' ∧ c ≠ '\n') ∧
    rustTrim x.2.2.value = x.2.2.value := by
  rw [parse_kv_tail] at h
  split at h
  · cases h
  · next r2 k h2 =>
    split at h
    · cases h
    · next r3 o3 h3 =>
      split at h
      · cases h
      · next r4 v h4 =>
        cases h
        obtain ⟨j, hj, hk, -⟩ := parse_key_inv h2
        obtain ⟨j3, hj3, hv, -⟩ := parse_value_inv h4
        refine ⟨rfl, ⟨j, hj, hk⟩, ?_, ?_⟩
        · intro c hc
          simp only [] at hc
          rw [hv] at hc
          have hall : ∀ d ∈ j3.takeWhile (fun c => !(c = '\r' || c = '\n')),
              (fun c => !(c = '\r' || c = '\n')) d = true :=
            fun d hd => mem_takeWhile' (fun c => !(c = '\r' || c = '\n')) hd
          have := rustTrim_all hall c hc
          simp only [Bool.not_eq_true'] at this
          constructor
          · intro hcr; rw [hcr] at this; simp at this
          · intro hcn; rw [hcn] at this; simp at this
        · simp only []
          rw [hv]
          exact rustTrim_idem _

theorem parse_key_value_kvInv {i : RStr} {x : RStr × (RStr × SysctlValue)}
    (h : parse_key_value i = some x) : kvInv x.2 := by
  rw [parse_key_value] at h
  have keyAll : ∀ (j : RStr),
      x.2.1 = j.takeWhile (fun c => !rustWS c && c ≠ '=') →
      ∀ c ∈ x.2.1, rustWS c = false ∧ c ≠ '=' := by
    intro j hj c hc
    rw [hj] at hc
    have := mem_takeWhile' _ hc
    simp only [Bool.and_eq_true, Bool.not_eq_true', decide_eq_true_eq] at this
    exact ⟨this.1, by simpa using this.2⟩
  split at h
  · next rh o hh =>
    obtain ⟨hig, ⟨j, hj, hk⟩, hval, htrim⟩ := parse_kv_tail_inv h
    refine ⟨keyAll j hk, ?_, hval, htrim⟩
    intro hfalse
    rw [hig] at hfalse
    cases hfalse
  · next hh =>
    obtain ⟨hig, ⟨j, hj, hk⟩, hval, htrim⟩ := parse_kv_tail_inv h
    refine ⟨keyAll j hk, ?_, hval, htrim⟩
    intro _ t hkey
    obtain ⟨j2, hj2, htag⟩ := token_none_inv hh
    rw [hj] at hj2
    cases hj2
    rw [hkey] at hk
    obtain ⟨t2, hj2, -⟩ := takeWhile_cons_inv hk.symm
    rcases tagP_none_head htag with hnil | ⟨c2, t3, hcons, hc2⟩
    · rw [hnil] at hj2; cases hj2
    · rw [hcons] at hj2
      cases hj2
      exact hc2 rfl

end ParseInversion

section MapHelpers

/-- The key list of a configuration map. -/
def keysOf (m : ConfigMap) : List RStr := m.map (fun p => p.1)

theorem keysOf_insertKV (m : ConfigMap) (k : RStr) (v : SysctlValue) :
    keysOf (insertKV m k v) =
      if m.any (fun p => p.1 = k) then keysOf m else keysOf m ++ [k] := by
  rw [insertKV]
  by_cases hmem : m.any (fun p => p.1 = k)
  · rw [if_pos hmem, if_pos hmem]
    rw [keysOf, keysOf, List.map_map]
    apply List.map_congr_left
    intro p _
    by_cases hp : p.1 = k
    · simp [hp]
    · simp [hp]
  · rw [if_neg hmem, if_neg hmem]
    simp [keysOf]

theorem mem_insertKV {m : ConfigMap} {k : RStr} {v : SysctlValue}
    {x : RStr × SysctlValue} (h : x ∈ insertKV m k v) :
    x ∈ m ∨ x = (k, v) := by
  rw [insertKV] at h
  by_cases hmem : m.any (fun p => p.1 = k)
  · rw [if_pos hmem] at h
    obtain ⟨p, hp, hx⟩ := List.mem_map.mp h
    by_cases hpk : p.1 = k
    · rw [if_pos hpk] at hx
      exact Or.inr hx.symm
    · rw [if_neg hpk] at hx
      exact Or.inl (hx ▸ hp)
  · rw [if_neg hmem] at h
    rcases List.mem_append.mp h with h1 | h1
    · exact Or.inl h1
    · exact Or.inr (by simpa using h1)

theorem nodup_keysOf_insertKV {m : ConfigMap} (k : RStr) (v : SysctlValue)
    (h : (keysOf m).Nodup) : (keysOf (insertKV m k v)).Nodup := by
  rw [keysOf_insertKV]
  by_cases hmem : m.any (fun p => p.1 = k)
  · rw [if_pos hmem]; exact h
  · rw [if_neg hmem]
    rw [List.nodup_append]
    refine ⟨h, List.nodup_singleton k, ?_⟩
    intro a ha hb
    have hak : a = k := by simpa using hb
    subst hak
    obtain ⟨p, hp, hpa⟩ := List.mem_map.mp ha
    exact hmem (List.any_eq_true.mpr ⟨p, hp, by simpa using hpa⟩)

theorem foldl_insertKV_mem {x : RStr × SysctlValue} :
    ∀ (l : List (RStr × SysctlValue)) (acc : ConfigMap),
      x ∈ l.foldl (fun m p => insertKV m p.1 p.2) acc → x ∈ acc ∨ x ∈ l := by
  intro l
  induction l with
  | nil => intro acc h; exact Or.inl h
  | cons p l ih =>
    intro acc h
    rw [List.foldl_cons] at h
    rcases ih (insertKV acc p.1 p.2) h with h1 | h1
    · rcases mem_insertKV h1 with h2 | h2
      · exact Or.inl h2
      · exact Or.inr (by rw [h2]; exact List.mem_cons_self _ _)
    · exact Or.inr (List.mem_cons_of_mem _ h1)

theorem mem_fromListKV {x : RStr × SysctlValue}
    {l : List (RStr × SysctlValue)} (h : x ∈ fromListKV l) : x ∈ l := by
  rcases foldl_insertKV_mem l [] h with h1 | h1
  · simp at h1
  · exact h1

theorem nodup_keysOf_foldl :
    ∀ (l : List (RStr × SysctlValue)) (acc : ConfigMap),
      (keysOf acc).Nodup →
      (keysOf (l.foldl (fun m p => insertKV m p.1 p.2) acc)).Nodup := by
  intro l
  induction l with
  | nil => intro acc h; exact h
  | cons p l ih =>
    intro acc h
    rw [List.foldl_cons]
    exact ih _ (nodup_keysOf_insertKV p.1 p.2 h)

theorem nodup_keysOf_fromListKV (l : List (RStr × SysctlValue)) :
    (keysOf (fromListKV l)).Nodup :=
  nodup_keysOf_foldl l [] (by simp [keysOf])

theorem foldl_insertKV_fresh :
    ∀ (l : List (RStr × SysctlValue)) (acc : ConfigMap),
      (keysOf (acc ++ l)).Nodup →
      l.foldl (fun m p => insertKV m p.1 p.2) acc = acc ++ l := by
  intro l
  induction l with
  | nil => intro acc _; simp
  | cons p l ih =>
    intro acc h
    rw [List.foldl_cons]
    have hfresh : ¬ acc.any (fun q => q.1 = p.1) := by
      intro hany
      obtain ⟨q, hq, hqp⟩ := List.any_eq_true.mp hany
      have h1 : p.1 ∈ keysOf acc := by
        have : q.1 = p.1 := by simpa using hqp
        exact this ▸ List.mem_map.mpr ⟨q, hq, rfl⟩
      have h2 : p.1 ∈ keysOf (p :: l) := List.mem_cons_self _ _
      rw [keysOf, List.map_append] at h
      have := (List.nodup_append.mp h).2.2
      exact this h1 h2
    have hins : insertKV acc p.1 p.2 = acc ++ [p] := by
      rw [insertKV, if_neg hfresh]
    rw [hins, ih (acc ++ [p]) (by simpa using h)]
    simp

theorem fromListKV_self {l : List (RStr × SysctlValue)}
    (h : (l.map (fun p => p.1)).Nodup) : fromListKV l = l := by
  have := foldl_insertKV_fresh l [] (by simpa [keysOf] using h)
  simpa [fromListKV] using this

end MapHelpers

section SysctlInversion

theorem sysctlUnit_inv {i : RStr} {x : RStr × (RStr × SysctlValue)}
    (h : sysctlUnit i = some x) :
    ∃ r1 r2, skip0 i = some (r1, ()) ∧
      parse_key_value r1 = some (r2, x.2) ∧ skip0 r2 = some (x.1, ()) := by
  rw [sysctlUnit] at h
  split at h
  · cases h
  · next r1 u1 h1 =>
    split at h
    · cases h
    · next r2 kv h2 =>
      split at h
      · cases h
      · next r3 u3 h3 =>
        cases h
        cases u1
        cases u3
        exact ⟨r1, r2, h1, h2, h3⟩

theorem sysctlUnit_kvInv {i : RStr} {x : RStr × (RStr × SysctlValue)}
    (h : sysctlUnit i = some x) : kvInv x.2 := by
  obtain ⟨r1, r2, -, h2, -⟩ := sysctlUnit_inv h
  exact parse_key_value_kvInv (x := (r2, x.2)) h2

theorem parse_sysctl_inv {input r : RStr} {m : ConfigMap}
    (h : parse_sysctl input = some (r, m)) :
    r = [] ∧ ∃ us, many0P sysctlUnit input = some ([], us) ∧
      m = fromListKV us ∧ ∀ u ∈ us, kvInv u := by
  rw [parse_sysctl] at h
  split at h
  · cases h
  · next r0 us h0 =>
    split at h
    · cases h
    · next r2 o2 h2 =>
      obtain ⟨h0nil, h2nil⟩ := eofP_inv h2
      cases h
      subst h0nil
      refine ⟨h2nil, us, h0, rfl, ?_⟩
      intro u hu
      exact many0P_pres sysctlUnit_lt
        (fun i r a ha => sysctlUnit_kvInv (x := (r, a)) ha)
        input [] us h0 u hu

end SysctlInversion

section RenderCompute

theorem nomWS_rustWS {c : Char} (h : nomWS c = true) : rustWS c = true := by
  rw [nomWS] at h
  simp only [Bool.or_eq_true, decide_eq_true_eq] at h
  rcases h with ((rfl | rfl) | rfl) | rfl <;> decide

theorem rustWS_false_nomWS {c : Char} (h : rustWS c = false) :
    nomWS c = false := by
  cases hn : nomWS c with
  | false => rfl
  | true => rw [nomWS_rustWS hn] at h; cases h

/-- The extra conditions on an entry under which its rendering survives a
re-parse: the key and the value must not look like comment starters, and the
value must be nonempty. -/
def goodEntry (e : RStr × SysctlValue) : Prop :=
  e.1.head? ≠ some '#' ∧ e.1.head? ≠ some ';' ∧
  e.2.value ≠ [] ∧ e.2.value.head? ≠ some '#' ∧ e.2.value.head? ≠ some ';'

instance (e : RStr × SysctlValue) : Decidable (goodEntry e) := by
  rw [goodEntry]
  infer_instance

theorem skipStop_cons_of_key {c : Char} {t : RStr}
    (hw : rustWS c = false) (h1 : c ≠ '#') (h2 : c ≠ ';') :
    skipStop (c :: t) :=
  Or.inr ⟨c, t, rfl, h1, h2, rustWS_false_nomWS hw⟩

theorem skipStop_render {es : List (RStr × SysctlValue)}
    (h : ∀ e ∈ es, kvInv e ∧ goodEntry e) : skipStop (render es) := by
  cases es with
  | nil => exact Or.inl rfl
  | cons e rest =>
    obtain ⟨⟨hkey, -, -, -⟩, hh1, hh2, -, -, -⟩ := h e (List.mem_cons_self _ _)
    rw [render, renderEntry]
    cases hig : e.2.ignore_error with
    | true =>
      exact Or.inr ⟨'-', e.1 ++ '=' :: (e.2.value ++ ['\n']) ++ render rest,
        rfl, by decide, by decide, by decide⟩
    | false =>
      cases hk : e.1 with
      | nil =>
        exact Or.inr ⟨'=', (e.2.value ++ ['\n']) ++ render rest,
          rfl, by decide, by decide, by decide⟩
      | cons c t =>
        have hc := hkey c (hk ▸ List.mem_cons_self c t)
        have hc1 : c ≠ '#' := by
          intro hcc; rw [hk, hcc] at hh1; exact hh1 rfl
        have hc2 : c ≠ ';' := by
          intro hcc; rw [hk, hcc] at hh2; exact hh2 rfl
        exact Or.inr ⟨c, t ++ '=' :: (e.2.value ++ ['\n']) ++ render rest,
          rfl, hc1, hc2, rustWS_false_nomWS hc.1⟩

theorem parse_key_compute {k : RStr} (tail : RStr)
    (hk : ∀ c ∈ k, rustWS c = false ∧ c ≠ '=')
    (hs : skipStop (k ++ '=' :: tail)) :
    parse_key (k ++ '=' :: tail) = some ('=' :: tail, k) := by
  have hall : ∀ c ∈ k, (fun c => !rustWS c && c ≠ '=') c = true := by
    intro c hc
    obtain ⟨h1, h2⟩ := hk c hc
    simp [h1, h2]
  have hstop : (fun c => !rustWS c && c ≠ '=') '=' = false := by decide
  obtain ⟨htake, hdrop⟩ := takeWhile_append_stop _ tail hall hstop
  rw [parse_key, token, skip0_stop hs]
  show takeWhileP (fun c => !rustWS c && c ≠ '=') (k ++ '=' :: tail) = _
  rw [takeWhileP, htake, hdrop]

theorem equals_compute (tail : RStr) :
    equals ('=' :: tail) = some (tail, ['=']) := by
  rw [equals, token, skip0_noop (by decide) (by decide) (by decide)]
  show tagP ['='] ('=' :: tail) = _
  rw [tagP_single, if_pos rfl]

theorem parse_value_compute {v : RStr} (rest : RStr)
    (hv : ∀ c ∈ v, c ≠ '\r' ∧ c ≠ '\n') (hvt : rustTrim v = v)
    (hvne : v ≠ []) (hvh1 : v.head? ≠ some '#') (hvh2 : v.head? ≠ some ';') :
    parse_value (v ++ '\n' :: rest) = some ('\n' :: rest, v) := by
  have hall : ∀ c ∈ v, (fun c => !(c = '\r' || c = '\n')) c = true := by
    intro c hc
    obtain ⟨h1, h2⟩ := hv c hc
    simp [h1, h2]
  have hstop : (fun c => !(c = '\r' || c = '\n')) '\n' = false := by decide
  obtain ⟨htake, hdrop⟩ := takeWhile_append_stop _ rest hall hstop
  have hs : skipStop (v ++ '\n' :: rest) := by
    cases hvv : v with
    | nil => exact absurd hvv hvne
    | cons c t =>
      rw [List.cons_append]
      have hcw : rustWS c = false := by
        apply rustTrim_head_false (s := v)
        rw [hvt, hvv]
      refine skipStop_cons_of_key hcw ?_ ?_
      · intro hc1; rw [hvv, hc1] at hvh1; exact hvh1 rfl
      · intro hc1; rw [hvv, hc1] at hvh2; exact hvh2 rfl
  rw [parse_value, token, skip0_stop hs]
  show Option.map (fun r => (r.1, rustTrim r.2))
    (takeTillP (fun c => c = '\r' || c = '\n') (v ++ '\n' :: rest)) = _
  rw [takeTillP_eq, htake, hdrop]
  simp [hvt]

theorem parse_kv_tail_compute {k v : RStr} {g : Bool} (rest : RStr)
    (hk : ∀ c ∈ k, rustWS c = false ∧ c ≠ '=')
    (hs : skipStop (k ++ '=' :: (v ++ '\n' :: rest)))
    (hv : ∀ c ∈ v, c ≠ '\r' ∧ c ≠ '\n') (hvt : rustTrim v = v)
    (hvne : v ≠ []) (hvh1 : v.head? ≠ some '#') (hvh2 : v.head? ≠ some ';') :
    parse_kv_tail (k ++ '=' :: (v ++ '\n' :: rest)) g =
      some ('\n' :: rest, (k, { value := v, ignore_error := g })) := by
  simp only [parse_kv_tail, parse_key_compute _ hk hs, equals_compute,
    parse_value_compute rest hv hvt hvne hvh1 hvh2]

theorem render_cons_eq_true {e : RStr × SysctlValue}
    (rest : List (RStr × SysctlValue)) (hig : e.2.ignore_error = true) :
    render (e :: rest) =
      '-' :: (e.1 ++ '=' :: (e.2.value ++ '\n' :: render rest)) := by
  rw [render, renderEntry, hig]
  simp [List.append_assoc]

theorem render_cons_eq_false {e : RStr × SysctlValue}
    (rest : List (RStr × SysctlValue)) (hig : e.2.ignore_error = false) :
    render (e :: rest) =
      e.1 ++ '=' :: (e.2.value ++ '\n' :: render rest) := by
  rw [render, renderEntry, hig]
  simp [List.append_assoc]

theorem skipStop_key_eq {k : RStr} (tail : RStr)
    (hk : ∀ c ∈ k, rustWS c = false ∧ c ≠ '=')
    (h1 : k.head? ≠ some '#') (h2 : k.head? ≠ some ';') :
    skipStop (k ++ '=' :: tail) := by
  cases hkc : k with
  | nil => exact Or.inr ⟨'=', tail, rfl, by decide, by decide, by decide⟩
  | cons c t =>
    have hc := hk c (hkc ▸ List.mem_cons_self c t)
    have hc1 : c ≠ '#' := by
      intro hcc; rw [hkc, hcc] at h1; exact h1 rfl
    have hc2 : c ≠ ';' := by
      intro hcc; rw [hkc, hcc] at h2; exact h2 rfl
    exact Or.inr ⟨c, t ++ '=' :: tail, rfl, hc1, hc2, rustWS_false_nomWS hc.1⟩

theorem sysctlUnit_compute {e : RStr × SysctlValue}
    {rest' : List (RStr × SysctlValue)} (hkv : kvInv e) (hgood : goodEntry e)
    (hstart : skipStop (render (e :: rest')))
    (hrest : skipStop (render rest')) :
    sysctlUnit (render (e :: rest')) = some (render rest', e) := by
  obtain ⟨k0, sv0⟩ := e
  obtain ⟨v0, ig0⟩ := sv0
  obtain ⟨hkey, hhyph, hval, htrim⟩ := hkv
  simp only [] at hkey hhyph hval htrim
  obtain ⟨hh1, hh2, hvne, hv1, hv2⟩ := hgood
  simp only [] at hh1 hh2 hvne hv1 hv2
  have hs2 : skipStop (k0 ++ '=' :: (v0 ++ '\n' :: render rest')) :=
    skipStop_key_eq _ hkey hh1 hh2
  set e0 : RStr × SysctlValue :=
    (k0, { value := v0, ignore_error := ig0 }) with he0
  have hpkv : parse_key_value (render (e0 :: rest')) =
      some ('\n' :: render rest', e0) := by
    cases ig0 with
    | true =>
      have htail := parse_kv_tail_compute (g := true) (render rest')
        hkey hs2 hval htrim hvne hv1 hv2
      rw [render_cons_eq_true rest' rfl, parse_key_value]
      have hhy : hyphen
          ('-' :: (k0 ++ '=' :: (v0 ++ '\n' :: render rest'))) =
          some (k0 ++ '=' :: (v0 ++ '\n' :: render rest'), ['-']) := by
        rw [hyphen, token, skip0_noop (by decide) (by decide) (by decide)]
        show tagP ['-'] ('-' :: _) = _
        rw [tagP_single, if_pos rfl]
      simp only [hhy, htail]
    | false =>
      have htail := parse_kv_tail_compute (g := false) (render rest')
        hkey hs2 hval htrim hvne hv1 hv2
      rw [render_cons_eq_false rest' rfl, parse_key_value]
      have hhy : hyphen
          (k0 ++ '=' :: (v0 ++ '\n' :: render rest')) = none := by
        rw [hyphen, token, skip0_stop hs2]
        cases hkc : k0 with
        | nil =>
          show tagP ['-'] ('=' :: _) = none
          rw [tagP_single, if_neg (by decide)]
        | cons c t =>
          have hcne : c ≠ '-' := by
            intro hcc
            exact hhyph rfl t (by rw [hkc, hcc])
          show tagP ['-'] (c :: _) = none
          rw [tagP_single, if_neg hcne]
      simp only [hhy, htail]
  rw [sysctlUnit, skip0_stop hstart]
  show (match parse_key_value (render (e0 :: rest')) with
        | none => none
        | some (r2, kv) =>
          match skip0 r2 with
          | none => none
          | some (r3, _) => some (r3, kv)) = some (render rest', e0)
  rw [hpkv]
  show (match skip0 ('\n' :: render rest') with
        | none => none
        | some (r3, _) => some (r3, e0)) = some (render rest', e0)
  rw [skip0_newline hrest]

theorem many0_render {es : List (RStr × SysctlValue)}
    (h : ∀ e ∈ es, kvInv e ∧ goodEntry e) :
    many0P sysctlUnit (render es) = some ([], es) := by
  induction es with
  | nil =>
    rw [render]
    exact many0P_of_none (by decide)
  | cons e rest ih =>
    have hrest' : ∀ x ∈ rest, kvInv x ∧ goodEntry x :=
      fun x hx => h x (List.mem_cons_of_mem _ hx)
    have he := h e (List.mem_cons_self _ _)
    have hunit := sysctlUnit_compute he.1 he.2 (skipStop_render h)
      (skipStop_render hrest')
    rw [many0P_of_some sysctlUnit_lt hunit, ih hrest']
    rfl

end RenderCompute

section ClaimC3

/-- C3: `SchemaType::from_str` is total and follows the exact precedence
boolean-literal, then full `f32` parse, then string: it returns `Boolean`
iff the input is exactly `true` or `false`, `Number` iff it is not a boolean
literal but is accepted in full by the `f32` parser, and `String` otherwise;
in particular both boolean literals infer to `Boolean` and every string
falls in exactly one class. -/
theorem fromStr_precedence (s : RStr) :
    (SchemaType.fromStr s = SchemaType.Boolean ↔
      (s = "true".data ∨ s = "false".data)) ∧
    (SchemaType.fromStr s = SchemaType.Number ↔
      (¬(s = "true".data ∨ s = "false".data) ∧ rustF32Accepts s = true)) ∧
    (SchemaType.fromStr s = SchemaType.String ↔
      (¬(s = "true".data ∨ s = "false".data) ∧ rustF32Accepts s = false)) ∧
    SchemaType.fromStr "true".data = SchemaType.Boolean ∧
    SchemaType.fromStr "false".data = SchemaType.Boolean := by
  refine ⟨?_, ?_, ?_, by decide, by decide⟩ <;>
  · by_cases h1 : s = "true".data ∨ s = "false".data
    · have hb : (s = "true".data || s = "false".data) = true := by
        rcases h1 with h | h <;> simp [h]
      simp [SchemaType.fromStr, hb, h1]
    · have hb : (s = "true".data || s = "false".data) = false := by
        rw [not_or] at h1
        simp [h1.1, h1.2]
      cases h2 : rustF32Accepts s <;>
        simp [SchemaType.fromStr, hb, h1, h2]

end ClaimC3

section ClaimC2

/-- C2: `validate_by_schema` returns success iff the computed error list is
empty, and on failure it returns exactly that full list (it never truncates
to a first violation). -/
theorem validate_ok_iff_no_errors (c : ConfigMap) (s : Schema) :
    (validate_by_schema c s = Except.ok () ↔ validationErrors c s = []) ∧
    (∀ es, validate_by_schema c s = Except.error es →
      es = validationErrors c s) := by
  rw [validate_by_schema]
  by_cases h : (validationErrors c s).isEmpty
  · rw [if_pos h]
    constructor
    · constructor
      · intro _
        exact List.isEmpty_iff.mp h
      · intro _
        rfl
    · intro es hes
      cases hes
  · rw [if_neg h]
    constructor
    · constructor
      · intro hok
        cases hok
      · intro hnil
        rw [List.isEmpty_iff] at h
        exact absurd hnil h
    · intro es hes
      cases hes
      rfl

/-- Witness for C2 at a concrete configuration and schema. -/
theorem validate_ok_iff_no_errors_witness :
    (validate_by_schema []
        { entries := [{ name := "k".data, schema_type := SchemaType.String }] } =
        Except.ok () ↔
      validationErrors []
        { entries := [{ name := "k".data, schema_type := SchemaType.String }] } =
        []) ∧
    [ValidationError.MissingKey "k".data] =
      validationErrors []
        { entries := [{ name := "k".data, schema_type := SchemaType.String }] } :=
  ⟨(validate_ok_iff_no_errors _ _).1,
    (validate_ok_iff_no_errors _ _).2 _ (by decide)⟩

end ClaimC2


section ClaimC10

theorem lookupKV_map_flag (f : RStr × SysctlValue → Bool) :
    ∀ (m : ConfigMap) (k : RStr),
      (lookupKV k m = none →
        lookupKV k (m.map (fun p =>
          (p.1, ({ value := p.2.value, ignore_error := f p } : SysctlValue)))) = none) ∧
      (∀ sv, lookupKV k m = some sv →
        ∃ b, lookupKV k (m.map (fun p =>
          (p.1, ({ value := p.2.value, ignore_error := f p } : SysctlValue)))) =
          some { value := sv.value, ignore_error := b }) := by
  intro m
  induction m with
  | nil => intro k; exact ⟨fun _ => rfl, fun sv hsv => by cases hsv⟩
  | cons p t ih =>
    intro k
    by_cases hp : p.1 = k
    · constructor
      · intro hnone
        rw [lookupKV, List.find?_cons_of_pos _ (by simpa using hp)] at hnone
        cases hnone
      · intro sv hsv
        rw [lookupKV, List.find?_cons_of_pos _ (by simpa using hp)] at hsv
        simp only [Option.map_some'] at hsv
        cases hsv
        refine ⟨f p, ?_⟩
        rw [lookupKV, List.map_cons, List.find?_cons_of_pos _ (by simpa using hp)]
        rfl
    · constructor
      · intro hnone
        rw [lookupKV, List.find?_cons_of_neg _ (by simpa using hp)] at hnone
        rw [lookupKV, List.map_cons, List.find?_cons_of_neg _ (by simpa using hp)]
        exact (ih k).1 hnone
      · intro sv hsv
        rw [lookupKV, List.find?_cons_of_neg _ (by simpa using hp)] at hsv
        rw [lookupKV, List.map_cons, List.find?_cons_of_neg _ (by simpa using hp)]
        exact (ih k).2 sv hsv

theorem keyErrors_map_flag (c : ConfigMap) (s : Schema)
    (f : RStr × SysctlValue → Bool) (k : RStr) :
    keyErrors (c.map (fun p =>
      (p.1, ({ value := p.2.value, ignore_error := f p } : SysctlValue)))) s k =
    keyErrors c s k := by
  rw [keyErrors, keyErrors]
  cases hfind : s.entries.find? (fun e => e.name = k) with
  | none => rfl
  | some entry =>
    cases hlook : lookupKV k c with
    | none =>
      rw [(lookupKV_map_flag f c k).1 hlook]
    | some sv =>
      obtain ⟨b, hb⟩ := (lookupKV_map_flag f c k).2 sv hlook
      rw [hb]

/-- C10: the `ignore_error` flags never influence validation: replacing the
flag of every entry by an arbitrary function of the entry leaves
`validate_by_schema` unchanged (same success/failure and same error list). -/
theorem validate_ignores_flags (c : ConfigMap) (s : Schema)
    (f : RStr × SysctlValue → Bool) :
    validate_by_schema (c.map (fun p =>
      (p.1, ({ value := p.2.value, ignore_error := f p } : SysctlValue)))) s =
    validate_by_schema c s := by
  have hkeys : (c.map (fun p =>
      (p.1, ({ value := p.2.value, ignore_error := f p } : SysctlValue)))).map
        (fun p => p.1) =
      c.map (fun p => p.1) := by
    induction c with
    | nil => rfl
    | cons p t ih => simp only [List.map_cons, ih]
  have herr : validationErrors (c.map (fun p =>
      (p.1, ({ value := p.2.value, ignore_error := f p } : SysctlValue)))) s =
      validationErrors c s := by
    rw [validationErrors, validationErrors, hkeys]
    have hflat : (dedupF (dedupF (s.entries.map (fun e => e.name)) ++
        dedupF (c.map (fun p => p.1)))).flatMap
          (keyErrors (c.map (fun p =>
            (p.1, ({ value := p.2.value, ignore_error := f p } : SysctlValue)))) s) =
        (dedupF (dedupF (s.entries.map (fun e => e.name)) ++
        dedupF (c.map (fun p => p.1)))).flatMap (keyErrors c s) := by
      apply List.flatMap_congr
      intro k _
      exact keyErrors_map_flag c s f k
    rw [hflat]
  rw [validate_by_schema, validate_by_schema, herr]

end ClaimC10

section ClaimC5

theorem mem_keyErrors_shape {c : ConfigMap} {s : Schema} {k : RStr}
    {x : ValidationError} (h : x ∈ keyErrors c s k) :
    (∃ ex ac, x = ValidationError.WrongType k ex ac) ∨
    x = ValidationError.TooLongLine k := by
  rw [keyErrors] at h
  split at h
  · simp at h
  · split at h
    · simp at h
    · split at h
      · split at h
        · rcases List.mem_singleton.mp h with rfl
          exact Or.inr rfl
        · simp at h
      · simp only [ne_eq] at h
        split at h
        · rcases List.mem_singleton.mp h with rfl
          exact Or.inl ⟨_, _, rfl⟩
        · simp at h

theorem keyErrors_string_eq {c : ConfigMap} {s : Schema} {k : RStr}
    {entry : SchemaEntry} {sv : SysctlValue}
    (hfind : s.entries.find? (fun e => e.name = k) = some entry)
    (htype : entry.schema_type = SchemaType.String)
    (hlook : lookupKV k c = some sv) :
    keyErrors c s k =
      if (linesOf sv.value).any (fun line => 4096 ≤ line.length) then
        [ValidationError.TooLongLine k]
      else [] := by
  simp only [keyErrors, hfind, hlook, htype]

theorem mem_schemaKeys_of_find {s : Schema} {k : RStr} {entry : SchemaEntry}
    (hfind : s.entries.find? (fun e => e.name = k) = some entry) :
    k ∈ s.entries.map (fun e => e.name) := by
  have hmem := List.mem_of_find?_eq_some hfind
  have hname : entry.name = k := by
    have := List.find?_some hfind
    simpa using this
  exact hname ▸ List.mem_map.mpr ⟨entry, hmem, rfl⟩

/-- C5: for a key present in both the configuration and the schema whose
(first-match) declared type is `String`, validation never emits a
`WrongType` for that key, and emits `TooLongLine` for it iff some line of
the raw value has at least 4096 characters. -/
theorem string_type_never_wrong (c : ConfigMap) (s : Schema) (k : RStr)
    (entry : SchemaEntry) (sv : SysctlValue)
    (hfind : s.entries.find? (fun e => e.name = k) = some entry)
    (htype : entry.schema_type = SchemaType.String)
    (hlook : lookupKV k c = some sv) :
    (∀ ex ac, ValidationError.WrongType k ex ac ∉ validationErrors c s) ∧
    (ValidationError.TooLongLine k ∈ validationErrors c s ↔
      (linesOf sv.value).any (fun line => 4096 ≤ line.length) = true) := by
  have hcommon : k ∈ dedupF (dedupF (s.entries.map (fun e => e.name)) ++
      dedupF (c.map (fun p => p.1))) := by
    rw [mem_dedupF]
    exact List.mem_append_left _ (mem_dedupF.mpr (mem_schemaKeys_of_find hfind))
  have hflatOnly : ∀ x : ValidationError,
      x ∈ validationErrors c s →
      ((∃ n, x = ValidationError.MissingKey n) ∨
       (∃ n, x = ValidationError.UnknownKey n) ∨
       ∃ k2, k2 ∈ dedupF (dedupF (s.entries.map (fun e => e.name)) ++
         dedupF (c.map (fun p => p.1))) ∧ x ∈ keyErrors c s k2) := by
    intro x hx
    rw [validationErrors] at hx
    rcases List.mem_append.mp hx with hx1 | hx2
    · rcases List.mem_append.mp hx1 with hx3 | hx4
      · obtain ⟨n, -, rfl⟩ := List.mem_map.mp hx3
        exact Or.inl ⟨n, rfl⟩
      · obtain ⟨n, -, rfl⟩ := List.mem_map.mp hx4
        exact Or.inr (Or.inl ⟨n, rfl⟩)
    · obtain ⟨k2, hk2, hxk⟩ := List.mem_flatMap.mp hx2
      exact Or.inr (Or.inr ⟨k2, hk2, hxk⟩)
  constructor
  · intro ex ac hx
    rcases hflatOnly _ hx with ⟨n, hn⟩ | ⟨n, hn⟩ | ⟨k2, -, hxk⟩
    · cases hn
    · cases hn
    · rcases mem_keyErrors_shape hxk with ⟨ex2, ac2, heq⟩ | heq
      · cases heq
        rw [keyErrors_string_eq hfind htype hlook] at hxk
        split at hxk
        · rcases List.mem_singleton.mp hxk with h
          cases h
        · simp at hxk
      · cases heq
  · constructor
    · intro hx
      rcases hflatOnly _ hx with ⟨n, hn⟩ | ⟨n, hn⟩ | ⟨k2, -, hxk⟩
      · cases hn
      · cases hn
      · rcases mem_keyErrors_shape hxk with ⟨ex2, ac2, heq⟩ | heq
        · cases heq
        · cases heq
          rw [keyErrors_string_eq hfind htype hlook] at hxk
          split at hxk
          · next hcond => exact hcond
          · simp at hxk
    · intro hcond
      rw [validationErrors]
      refine List.mem_append_right _ (List.mem_flatMap.mpr ⟨k, hcommon, ?_⟩)
      rw [keyErrors_string_eq hfind htype hlook, if_pos hcond]
      exact List.mem_singleton.mpr rfl

/-- Witness for C5 at a concrete configuration and schema: a `String`-typed
key whose value is short yields no error for that key; with a multi-line
value the line check is exercised. -/
theorem string_type_never_wrong_witness :
    (∀ ex ac, ValidationError.WrongType "k".data ex ac ∉
      validationErrors [("k".data, { value := "true".data, ignore_error := false })]
        { entries := [{ name := "k".data, schema_type := SchemaType.String }] }) ∧
    (ValidationError.TooLongLine "k".data ∈
      validationErrors [("k".data, { value := "true".data, ignore_error := false })]
        { entries := [{ name := "k".data, schema_type := SchemaType.String }] } ↔
      (linesOf "true".data).any (fun line => 4096 ≤ line.length) = true) :=
  string_type_never_wrong _ _ "k".data
    { name := "k".data, schema_type := SchemaType.String }
    { value := "true".data, ignore_error := false }
    (by decide) (by decide) (by decide)

end ClaimC5

section ClaimC8

theorem find?_append_right_miss {α : Type} {p : α → Bool} {e : α}
    (he : p e = false) :
    ∀ l : List α, (l ++ [e]).find? p = l.find? p := by
  intro l
  induction l with
  | nil => simp [List.find?, he]
  | cons a t ih =>
    by_cases ha : p a
    · rw [List.cons_append, List.find?_cons_of_pos _ ha,
        List.find?_cons_of_pos _ ha]
    · rw [List.cons_append, List.find?_cons_of_neg _ (by simpa using ha),
        List.find?_cons_of_neg _ (by simpa using ha), ih]

theorem find?_append_left_hit {α : Type} {p : α → Bool} :
    ∀ {l : List α}, (∃ x ∈ l, p x = true) →
      ∀ l2 : List α, (l ++ l2).find? p = l.find? p := by
  intro l
  induction l with
  | nil => rintro ⟨x, hx, -⟩; simp at hx
  | cons a t ih =>
    rintro ⟨x, hx, hpx⟩ l2
    by_cases ha : p a
    · rw [List.cons_append, List.find?_cons_of_pos _ ha,
        List.find?_cons_of_pos _ ha]
    · rcases List.mem_cons.mp hx with rfl | hxt
      · exact absurd hpx (by simpa using ha)
      · rw [List.cons_append, List.find?_cons_of_neg _ (by simpa using ha),
          List.find?_cons_of_neg _ (by simpa using ha), ih ⟨x, hxt, hpx⟩]

theorem find?_dup_append {entries : List SchemaEntry} {e : SchemaEntry}
    (h : e.name ∈ entries.map (fun x => x.name)) (k : RStr) :
    (entries ++ [e]).find? (fun x => x.name = k) =
      entries.find? (fun x => x.name = k) := by
  by_cases hk : e.name = k
  · obtain ⟨x, hx, hxname⟩ := List.mem_map.mp h
    exact find?_append_left_hit ⟨x, hx, by simp [hxname, hk]⟩ [e]
  · exact find?_append_right_miss (by simpa using hk) entries

/-- C8 counterexample: with schema entries `[k: bool, k: string]` (the
duplicate `string` entry last) and configuration `{k: "abc"}`, validation
uses the FIRST entry's type `Boolean` and reports a `WrongType`; under the
claimed last-entry-wins lookup the declared type would be `String` and the
validation would succeed. -/
theorem schema_last_wins_cex :
    validate_by_schema
      [("k".data, { value := "abc".data, ignore_error := false })]
      { entries := [{ name := "k".data, schema_type := SchemaType.Boolean },
                    { name := "k".data, schema_type := SchemaType.String }] } =
      Except.error [ValidationError.WrongType "k".data SchemaType.Boolean
        SchemaType.String] := by decide

/-- C8 (amended): schema lookup during validation is first-match: appending
a further entry whose name already occurs in the schema leaves
`validate_by_schema` completely unchanged. -/
theorem schema_first_match_wins (c : ConfigMap) (s : Schema) (e : SchemaEntry)
    (h : e.name ∈ s.entries.map (fun x => x.name)) :
    validate_by_schema c { entries := s.entries ++ [e] } =
      validate_by_schema c s := by
  have hnames : (s.entries ++ [e]).map (fun x => x.name) =
      s.entries.map (fun x => x.name) ++ [e.name] := by
    rw [List.map_append]
    rfl
  have herr : validationErrors c { entries := s.entries ++ [e] } =
      validationErrors c s := by
    rw [validationErrors, validationErrors]
    simp only []
    rw [hnames, dedupF_append_mem h]
    have hflat : ∀ ks : List RStr,
        ks.flatMap (keyErrors c { entries := s.entries ++ [e] }) =
        ks.flatMap (keyErrors c s) := by
      intro ks
      apply List.flatMap_congr
      intro k _
      rw [keyErrors, keyErrors]
      simp only []
      rw [find?_dup_append h k]
    rw [hflat]
  rw [validate_by_schema, validate_by_schema, herr]

/-- Witness for the amended C8 at a concrete schema with a duplicate name. -/
theorem schema_first_match_wins_witness :
    validate_by_schema
      [("k".data, { value := "abc".data, ignore_error := false })]
      { entries := [{ name := "k".data, schema_type := SchemaType.Boolean }] ++
        [{ name := "k".data, schema_type := SchemaType.String }] } =
    validate_by_schema
      [("k".data, { value := "abc".data, ignore_error := false })]
      { entries := [{ name := "k".data, schema_type := SchemaType.Boolean }] } :=
  schema_first_match_wins _
    { entries := [{ name := "k".data, schema_type := SchemaType.Boolean }] }
    { name := "k".data, schema_type := SchemaType.String } (by decide)

end ClaimC8

section ClaimC9

/-- C9 counterexample: `take_while` in `parse_key` accepts zero characters,
so the unit `=v` parses with the empty-string key, and `parse_sysctl`
produces a configuration map containing the empty key. -/
theorem empty_key_parses_cex :
    parse_sysctl "=v".data =
      some ([], [([], { value := "v".data, ignore_error := false })]) ∧
    parse_key_value "=v".data =
      some ([], ([], { value := "v".data, ignore_error := false })) := by
  constructor <;> decide

/-- C9 (amended): every key accepted by the configuration grammar consists
of ZERO or more characters that are neither (Unicode) whitespace nor `=`;
the empty key is accepted, so a key/value unit whose `=` is preceded by no
key character still parses. -/
theorem parsed_key_chars (input r : RStr) (m : ConfigMap) (k : RStr)
    (sv : SysctlValue) (h : parse_sysctl input = some (r, m))
    (hmem : (k, sv) ∈ m) : ∀ c ∈ k, rustWS c = false ∧ c ≠ '=' := by
  obtain ⟨-, us, -, hm, hinv⟩ := parse_sysctl_inv h
  have : (k, sv) ∈ us := mem_fromListKV (hm ▸ hmem)
  exact (hinv _ this).1

/-- Witness for the amended C9 at a concrete input and key character. -/
theorem parsed_key_chars_witness :
    rustWS 'a' = false ∧ 'a' ≠ '=' :=
  parsed_key_chars "ab=c".data []
    [("ab".data, { value := "c".data, ignore_error := false })]
    "ab".data { value := "c".data, ignore_error := false }
    (by decide) (by decide) 'a' (by decide)

end ClaimC9

section ClaimC4

/-- C4 counterexample: parsing `k=\nv2` succeeds and assigns key `k` the
value `v2`, whose characters come from the line AFTER the one holding `=`:
the whitespace/comment skip run by `parse_value` before reading the value
crosses the line break. -/
theorem value_from_next_line_cex :
    parse_key_value "k=\nv2".data =
      some ([], ("k".data, { value := "v2".data, ignore_error := false })) ∧
    parse_sysctl "k=\nv2".data =
      some ([], [("k".data, { value := "v2".data, ignore_error := false })]) := by
  constructor <;> decide

/-- C4 (amended): in every successfully parsed key/value unit the value is
obtained from the input following `=` by first skipping whitespace and
comments — a skip that may cross line breaks — then taking the characters
up to (but not including) the next end-of-line or end-of-input, trimmed of
surrounding whitespace; the value may be empty, contains no line break
itself, and is trim-idempotent, but its characters may come from a line
after the one holding `=`. -/
theorem parse_value_spec (i r v : RStr) (h : parse_value i = some (r, v)) :
    (∃ j, skip0 i = some (j, ()) ∧
      v = rustTrim (j.takeWhile (fun c => !(c = '\r' || c = '\n'))) ∧
      r = j.dropWhile (fun c => !(c = '\r' || c = '\n'))) ∧
    (∀ c ∈ v, c ≠ '\r' ∧ c ≠ '\n') ∧ rustTrim v = v := by
  obtain ⟨j, hj, hv, hr⟩ := parse_value_inv h
  refine ⟨⟨j, hj, hv, hr⟩, ?_, ?_⟩
  · intro c hc
    rw [hv] at hc
    have hall : ∀ d ∈ j.takeWhile (fun c => !(c = '\r' || c = '\n')),
        (fun c => !(c = '\r' || c = '\n')) d = true :=
      fun d hd => mem_takeWhile' (fun c => !(c = '\r' || c = '\n')) hd
    have := rustTrim_all hall c hc
    simp only [Bool.not_eq_true'] at this
    constructor
    · intro hcr; rw [hcr] at this; simp at this
    · intro hcn; rw [hcn] at this; simp at this
  · rw [hv]
    exact rustTrim_idem _

/-- Witness for the amended C4 at a concrete input whose skip crosses a
line break. -/
theorem parse_value_spec_witness :
    (∃ j, skip0 "\nv2".data = some (j, ()) ∧
      "v2".data = rustTrim (j.takeWhile (fun c => !(c = '\r' || c = '\n'))) ∧
      ([] : RStr) = j.dropWhile (fun c => !(c = '\r' || c = '\n'))) ∧
    (∀ c ∈ "v2".data, c ≠ '\r' ∧ c ≠ '\n') ∧
    rustTrim "v2".data = "v2".data :=
  parse_value_spec "\nv2".data [] "v2".data (by decide)

end ClaimC4

section ClaimC6

theorem insertKV_ne_nil (m : ConfigMap) (k : RStr) (v : SysctlValue) :
    insertKV m k v ≠ [] := by
  rw [insertKV]
  by_cases hmem : m.any (fun p => p.1 = k)
  · rw [if_pos hmem]
    cases m with
    | nil => simp [List.any] at hmem
    | cons p t => simp
  · rw [if_neg hmem]
    simp

theorem foldl_insertKV_ne_nil :
    ∀ (l : List (RStr × SysctlValue)) (acc : ConfigMap), acc ≠ [] →
      l.foldl (fun m p => insertKV m p.1 p.2) acc ≠ [] := by
  intro l
  induction l with
  | nil => intro acc h; exact h
  | cons p t ih =>
    intro acc _
    rw [List.foldl_cons]
    exact ih _ (insertKV_ne_nil acc p.1 p.2)

theorem fromListKV_eq_nil {l : List (RStr × SysctlValue)}
    (h : fromListKV l = []) : l = [] := by
  cases l with
  | nil => rfl
  | cons u t =>
    rw [fromListKV, List.foldl_cons] at h
    exact absurd h (foldl_insertKV_ne_nil t _ (insertKV_ne_nil [] u.1 u.2))

/-- C6 counterexample: a nonempty input consisting of a single space —
containing no key/value unit, only whitespace — makes `parse_sysctl` FAIL
rather than return the empty map: the skip preceding a unit is consumed
only as part of a successful unit, so `eof` still sees the space. -/
theorem whitespace_only_fails_cex :
    parse_sysctl " ".data = none ∧
    parse_sysctl "# only a comment\n".data = none := by
  constructor <;> decide

/-- C6 (amended): `parse_sysctl` succeeds with the empty map exactly on the
empty input; every NONEMPTY input consisting only of whitespace, newlines
and comments (one fully consumed by `skip0`) fails; and the whole-document
parse fails precisely when the unit loop leaves a nonempty unconsumed
remainder for `eof`. -/
theorem parse_sysctl_empty_behavior :
    parse_sysctl [] = some ([], []) ∧
    (∀ input r m, parse_sysctl input = some (r, m) → m = [] → input = []) ∧
    (∀ input : RStr, input ≠ [] → skip0 input = some ([], ()) →
      parse_sysctl input = none) ∧
    (∀ input : RStr, parse_sysctl input = none ↔
      ∃ r us, many0P sysctlUnit input = some (r, us) ∧ r ≠ []) := by
  refine ⟨by decide, ?_, ?_, ?_⟩
  · intro input r m h hm
    obtain ⟨-, us, hmany, hfrom, -⟩ := parse_sysctl_inv h
    have hus : us = [] := fromListKV_eq_nil (hfrom ▸ hm)
    rw [hus] at hmany
    exact ((many0P_nil_inv hmany).1).symm
  · intro input hne hskip
    have hunit : sysctlUnit input = none := by
      rw [sysctlUnit, hskip]
      show parse_key_value [] = none
      decide
    rw [parse_sysctl, many0P_of_none hunit]
    show (match eofP input with
          | none => none
          | some (r2, _) => some (r2, fromListKV [])) = none
    rw [eofP, if_neg (by simpa [List.isEmpty_iff] using hne)]
  · intro input
    constructor
    · intro h
      obtain ⟨r, us, hmany, -⟩ := many0P_total sysctlUnit_lt input
      refine ⟨r, us, hmany, ?_⟩
      intro hrnil
      rw [parse_sysctl, hmany] at h
      rw [hrnil] at h
      cases h
    · rintro ⟨r, us, hmany, hrne⟩
      rw [parse_sysctl, hmany]
      show (match eofP r with
            | none => none
            | some (r2, _) => some (r2, fromListKV us)) = none
      rw [eofP, if_neg (by simpa [List.isEmpty_iff] using hrne)]

/-- Witness for the amended C6 at concrete inputs. -/
theorem parse_sysctl_empty_behavior_witness :
    parse_sysctl "\t\n".data = none ∧
    (parse_sysctl "x".data = none ↔
      ∃ r us, many0P sysctlUnit "x".data = some (r, us) ∧ r ≠ []) :=
  ⟨parse_sysctl_empty_behavior.2.2.1 "\t\n".data (by decide) (by decide),
   parse_sysctl_empty_behavior.2.2.2 "x".data⟩

end ClaimC6

section ClaimC7

/-- C7 counterexample: the input `#\r=1` parses successfully (the lone
`\r` defeats the comment rule, so `#` becomes a key character), producing
the map `{"#": "1"}`; rendering that map as `#=1\n` and re-parsing FAILS,
because the rendered line is now a well-formed comment and is skipped
whole, leaving no unit for the parser. -/
theorem roundtrip_cex :
    parse_sysctl "#\r=1".data =
      some ([], [("#".data, { value := "1".data, ignore_error := false })]) ∧
    render [("#".data, { value := "1".data, ignore_error := false })] =
      "#=1\n".data ∧
    parse_sysctl
      (render [("#".data, { value := "1".data, ignore_error := false })]) =
      none := by
  refine ⟨by decide, by decide, by decide⟩

/-- C7 (amended): for a configuration map obtained from a successful
`parse_sysctl` in which no key and no value begins with a comment
character (`#` or `;`) and every value is nonempty, rendering the map as
`key=value` lines (with a `-` prefix for set ignore flags) and re-parsing
yields exactly the original map. -/
theorem roundtrip_parse_render (input : RStr) (m : ConfigMap)
    (h : parse_sysctl input = some ([], m))
    (hgood : ∀ e ∈ m, goodEntry e) :
    parse_sysctl (render m) = some ([], m) := by
  obtain ⟨-, us, hmany, hm, hinv⟩ := parse_sysctl_inv h
  have hkeys : (m.map (fun p => p.1)).Nodup := by
    rw [hm]
    exact nodup_keysOf_fromListKV us
  have hall : ∀ e ∈ m, kvInv e ∧ goodEntry e := by
    intro e he
    exact ⟨hinv e (mem_fromListKV (hm ▸ he)), hgood e he⟩
  rw [parse_sysctl, many0_render hall]
  show (match eofP [] with
        | none => none
        | some (r2, _) => some (r2, fromListKV m)) = some ([], m)
  rw [show eofP [] = some ([], []) from rfl, fromListKV_self hkeys]

/-- Witness for the amended C7 at a concrete parsed map. -/
theorem roundtrip_parse_render_witness :
    parse_sysctl (render
      [("a".data, { value := "1".data, ignore_error := false }),
       ("b".data, { value := "2".data, ignore_error := true })]) =
    some ([],
      [("a".data, { value := "1".data, ignore_error := false }),
       ("b".data, { value := "2".data, ignore_error := true })]) :=
  roundtrip_parse_render "a=1\n-b=2".data
    [("a".data, { value := "1".data, ignore_error := false }),
     ("b".data, { value := "2".data, ignore_error := true })]
    (by decide) (by decide)

end ClaimC7

section ClaimC1

/-- Whether the key `n`, if present in both the configuration and the
schema, has a value violating its (first-match) declared type or the
4096-character line rule. -/
def violatesRule (c : ConfigMap) (s : Schema) (n : RStr) : Bool :=
  match s.entries.find? (fun e => e.name = n), lookupKV n c with
  | some entry, some sv =>
    match entry.schema_type with
    | SchemaType.String =>
      (linesOf sv.value).any (fun line => 4096 ≤ line.length)
    | _ => decide (entry.schema_type ≠ SchemaType.fromStr sv.value)
  | _, _ => false

/-- Recognizes a type/length error (WrongType or TooLongLine) for key `n`. -/
def isTypeErrAt (n : RStr) : ValidationError → Bool
  | ValidationError.WrongType m _ _ => m = n
  | ValidationError.TooLongLine m => m = n
  | _ => false

theorem count_nodup {l : List RStr} (h : l.Nodup)
    (a : RStr) : l.count a = if a ∈ l then 1 else 0 := by
  induction l with
  | nil => simp
  | cons b t ih =>
    obtain ⟨hbt, hnt⟩ := List.nodup_cons.mp h
    rw [List.count_cons, ih hnt]
    by_cases hab : a = b
    · subst hab
      rw [if_neg hbt, if_pos (List.mem_cons_self _ _)]
      simp
    · have hne : (b == a) = false := by
        simpa using fun h => hab h.symm
      rw [hne, if_neg (show ¬(false = true) by simp), Nat.add_zero]
      by_cases hat : a ∈ t
      · rw [if_pos hat, if_pos (List.mem_cons_of_mem _ hat)]
      · rw [if_neg hat, if_neg (by
          intro hc
          rcases List.mem_cons.mp hc with h1 | h1
          · exact hab h1
          · exact hat h1)]

theorem count_map_missing (l : List RStr) (n : RStr) :
    (l.map ValidationError.MissingKey).count (ValidationError.MissingKey n) =
      l.count n := by
  induction l with
  | nil => rfl
  | cons a t ih =>
    rw [List.map_cons, List.count_cons, List.count_cons, ih]
    by_cases ha : a = n <;> simp [ha]

theorem count_map_unknown (l : List RStr) (n : RStr) :
    (l.map ValidationError.UnknownKey).count (ValidationError.UnknownKey n) =
      l.count n := by
  induction l with
  | nil => rfl
  | cons a t ih =>
    rw [List.map_cons, List.count_cons, List.count_cons, ih]
    by_cases ha : a = n <;> simp [ha]

end ClaimC1


section ClaimC1b

theorem countP_keyErrors (c : ConfigMap) (s : Schema) (a n : RStr) :
    (keyErrors c s a).countP (isTypeErrAt n) =
      if a = n ∧ violatesRule c s a = true then 1 else 0 := by
  cases hf : s.entries.find? (fun e => e.name = a) with
  | none =>
    simp only [keyErrors, violatesRule, hf]
    simp
  | some entry =>
    cases hl : lookupKV a c with
    | none =>
      simp only [keyErrors, violatesRule, hf, hl]
      simp
    | some sv =>
      cases ht : entry.schema_type with
      | String =>
        simp only [keyErrors, violatesRule, hf, hl, ht]
        cases hlong : (linesOf sv.value).any (fun line => 4096 ≤ line.length) with
        | false => simp
        | true =>
          by_cases han : a = n <;>
            simp [List.countP_cons, isTypeErrAt, han]
      | Boolean =>
        simp only [keyErrors, violatesRule, hf, hl, ht]
        by_cases heq : SchemaType.Boolean = SchemaType.fromStr sv.value
        · simp [heq]
        · by_cases han : a = n <;>
            simp [List.countP_cons, isTypeErrAt, han, heq]
      | Number =>
        simp only [keyErrors, violatesRule, hf, hl, ht]
        by_cases heq : SchemaType.Number = SchemaType.fromStr sv.value
        · simp [heq]
        · by_cases han : a = n <;>
            simp [List.countP_cons, isTypeErrAt, han, heq]

end ClaimC1b

section ClaimC1c

theorem countP_flatMap_keys (c : ConfigMap) (s : Schema) (n : RStr) :
    ∀ ks : List RStr, ks.Nodup →
      (ks.flatMap (keyErrors c s)).countP (isTypeErrAt n) =
        if n ∈ ks ∧ violatesRule c s n = true then 1 else 0 := by
  intro ks
  induction ks with
  | nil => intro _; simp
  | cons a t ih =>
    intro hnd
    obtain ⟨hat, hnt⟩ := List.nodup_cons.mp hnd
    rw [List.flatMap_cons, List.countP_append, ih hnt, countP_keyErrors]
    by_cases han : a = n
    · subst han
      by_cases hviol : violatesRule c s a = true
      · rw [if_pos ⟨rfl, hviol⟩, if_neg (fun hc => hat hc.1),
          if_pos ⟨List.mem_cons_self a t, hviol⟩]
      · rw [if_neg (fun hc => hviol hc.2), if_neg (fun hc => hviol hc.2),
          if_neg (fun hc => hviol hc.2)]
    · by_cases hnt2 : n ∈ t ∧ violatesRule c s n = true
      · rw [if_neg (fun hc => han hc.1), if_pos hnt2,
          if_pos ⟨List.mem_cons_of_mem a hnt2.1, hnt2.2⟩]
      · rw [if_neg (fun hc => han hc.1), if_neg hnt2]
        rw [if_neg (fun hc => hnt2 ⟨by
          rcases List.mem_cons.mp hc.1 with h | h
          · exact absurd h.symm han
          · exact h, hc.2⟩)]

end ClaimC1c

section ClaimC1d

theorem contains_eq_mem (l : List RStr) (k : RStr) :
    l.contains k = true ↔ k ∈ l := by
  induction l with
  | nil => simp
  | cons a t ih =>
    rw [List.contains_cons, Bool.or_eq_true, beq_iff_eq, ih, List.mem_cons]

theorem violatesRule_find {c : ConfigMap} {s : Schema} {n : RStr}
    (hv : violatesRule c s n = true) :
    ∃ entry, s.entries.find? (fun e => e.name = n) = some entry := by
  cases hf : s.entries.find? (fun e => e.name = n) with
  | none =>
    rw [violatesRule, hf] at hv
    cases hl : lookupKV n c with
    | none => rw [hl] at hv; cases hv
    | some sv => rw [hl] at hv; cases hv
  | some entry => exact ⟨entry, rfl⟩

/-- C1: `validate_by_schema` emits exactly one `MissingKey(n)` for every
name `n` declared in the schema and absent from the configuration, exactly
one `UnknownKey(n)` for every configuration key absent from the schema, and
exactly one type/length error (`WrongType` or `TooLongLine`) for every key
present in both whose value violates its declared type or line-length rule
— and no others. -/
theorem validation_error_counts (c : ConfigMap) (s : Schema) (n : RStr) :
    ((validationErrors c s).count (ValidationError.MissingKey n) =
      if n ∈ s.entries.map (fun e => e.name) ∧ n ∉ c.map (fun p => p.1)
      then 1 else 0) ∧
    ((validationErrors c s).count (ValidationError.UnknownKey n) =
      if n ∈ c.map (fun p => p.1) ∧ n ∉ s.entries.map (fun e => e.name)
      then 1 else 0) ∧
    ((validationErrors c s).countP (isTypeErrAt n) =
      if violatesRule c s n = true then 1 else 0) := by
  simp only [validationErrors]
  set VK := dedupF (c.map (fun p => p.1)) with hVK
  set SK := dedupF (s.entries.map (fun e => e.name)) with hSK
  set MISS := SK.filter (fun k => !VK.contains k) with hMISS
  set UNK := VK.filter (fun k => !SK.contains k) with hUNK
  set COMM := dedupF (SK ++ VK) with hCOMM
  have hnodupMISS : MISS.Nodup := List.Nodup.filter _ (nodup_dedupF _)
  have hnodupUNK : UNK.Nodup := List.Nodup.filter _ (nodup_dedupF _)
  have hnodupCOMM : COMM.Nodup := nodup_dedupF _
  have hmemMISS : n ∈ MISS ↔
      (n ∈ s.entries.map (fun e => e.name) ∧ n ∉ c.map (fun p => p.1)) := by
    rw [hMISS, List.mem_filter]
    constructor
    · rintro ⟨h1, h2⟩
      refine ⟨mem_dedupF.mp h1, fun hm => ?_⟩
      rw [Bool.not_eq_true'] at h2
      rw [Bool.eq_false_iff] at h2
      exact h2 ((contains_eq_mem _ _).mpr (mem_dedupF.mpr hm))
    · rintro ⟨h1, h2⟩
      refine ⟨mem_dedupF.mpr h1, ?_⟩
      rw [Bool.not_eq_true']
      rw [Bool.eq_false_iff]
      intro hc
      exact h2 (mem_dedupF.mp ((contains_eq_mem _ _).mp hc))
  have hmemUNK : n ∈ UNK ↔
      (n ∈ c.map (fun p => p.1) ∧ n ∉ s.entries.map (fun e => e.name)) := by
    rw [hUNK, List.mem_filter]
    constructor
    · rintro ⟨h1, h2⟩
      refine ⟨mem_dedupF.mp h1, fun hm => ?_⟩
      rw [Bool.not_eq_true'] at h2
      rw [Bool.eq_false_iff] at h2
      exact h2 ((contains_eq_mem _ _).mpr (mem_dedupF.mpr hm))
    · rintro ⟨h1, h2⟩
      refine ⟨mem_dedupF.mpr h1, ?_⟩
      rw [Bool.not_eq_true']
      rw [Bool.eq_false_iff]
      intro hc
      exact h2 (mem_dedupF.mp ((contains_eq_mem _ _).mp hc))
  refine ⟨?_, ?_, ?_⟩
  · rw [List.count_append, List.count_append]
    have hB : (UNK.map ValidationError.UnknownKey).count
        (ValidationError.MissingKey n) = 0 := by
      rw [List.count_eq_zero]
      intro hmem
      obtain ⟨x, -, hx⟩ := List.mem_map.mp hmem
      cases hx
    have hC : (COMM.flatMap (keyErrors c s)).count
        (ValidationError.MissingKey n) = 0 := by
      rw [List.count_eq_zero]
      intro hmem
      obtain ⟨k2, -, hxk⟩ := List.mem_flatMap.mp hmem
      rcases mem_keyErrors_shape hxk with ⟨ex, ac, heq⟩ | heq <;> cases heq
    rw [hB, hC, count_map_missing, count_nodup hnodupMISS]
    by_cases hm : n ∈ MISS
    · rw [if_pos hm, if_pos (hmemMISS.mp hm)]
    · rw [if_neg hm, if_neg (fun hc => hm (hmemMISS.mpr hc))]
  · rw [List.count_append, List.count_append]
    have hA : (MISS.map ValidationError.MissingKey).count
        (ValidationError.UnknownKey n) = 0 := by
      rw [List.count_eq_zero]
      intro hmem
      obtain ⟨x, -, hx⟩ := List.mem_map.mp hmem
      cases hx
    have hC : (COMM.flatMap (keyErrors c s)).count
        (ValidationError.UnknownKey n) = 0 := by
      rw [List.count_eq_zero]
      intro hmem
      obtain ⟨k2, -, hxk⟩ := List.mem_flatMap.mp hmem
      rcases mem_keyErrors_shape hxk with ⟨ex, ac, heq⟩ | heq <;> cases heq
    rw [hA, hC, count_map_unknown, count_nodup hnodupUNK]
    by_cases hm : n ∈ UNK
    · rw [if_pos hm, if_pos (hmemUNK.mp hm)]
    · rw [if_neg hm, if_neg (fun hc => hm (hmemUNK.mpr hc))]
  · rw [List.countP_append, List.countP_append]
    have hA : (MISS.map ValidationError.MissingKey).countP (isTypeErrAt n)
        = 0 := by
      rw [List.countP_eq_zero]
      intro x hmem
      obtain ⟨y, -, hy⟩ := List.mem_map.mp hmem
      rw [← hy]
      simp [isTypeErrAt]
    have hB : (UNK.map ValidationError.UnknownKey).countP (isTypeErrAt n)
        = 0 := by
      rw [List.countP_eq_zero]
      intro x hmem
      obtain ⟨y, -, hy⟩ := List.mem_map.mp hmem
      rw [← hy]
      simp [isTypeErrAt]
    rw [hA, hB, countP_flatMap_keys c s n COMM hnodupCOMM]
    by_cases hv : violatesRule c s n = true
    · obtain ⟨entry, hf⟩ := violatesRule_find hv
      have hmem : n ∈ COMM := by
        rw [hCOMM, mem_dedupF]
        exact List.mem_append_left _
          (mem_dedupF.mpr (mem_schemaKeys_of_find hf))
      rw [if_pos ⟨hmem, hv⟩, if_pos hv]
    · rw [if_neg (fun hc => hv hc.2), if_neg hv]

end ClaimC1d
